import Mathlib

/-!
Verification of the SpiceDB caveat evaluation engine (`pkg/caveats/eval.go`).

The Go file under verification is a wrapper around the CEL evaluator: it runs a
compiled caveat expression against a possibly-incomplete context with partial
evaluation and state tracking enabled, sniffs the evaluator's error text to
distinguish "blocked on a missing attribute" from hard failures, and exposes a
`CaveatResult` with `Value`, `IsPartial`, `PartialValue` and `MissingVarNames`
accessors.

The CEL evaluator itself (three-valued short-circuit evaluation with unknowns,
cost accounting, and `interpreter.PruneAst`) is an external library that is not
part of the repository sources; those parts are modelled from the specification
(sections 4.2 and 4.3): three-valued left-to-right short-circuit semantics for
the boolean connectives, one cost unit charged per visited non-short-circuited
node with immediate abort once the budget is exceeded, unknown attributes
reported through a `no such attribute: id: N, names: [..]` error carrying the
distinct missing parameter names in first-encountered order, and pruning that
replaces every fully-decided subtree by its constant value.

The wrapper logic itself (`CaveatResult` and its accessors, the error-text
sniffing of `EvaluateCaveatWithConfig`, the construction of the residual
`CompiledCaveat` in `PartialValue`) is translated directly from the Go source.
-/

namespace Caveats

/-- Runtime values of the caveat expression language (the CEL value types
exercised by the caveats core: booleans, integers, strings). -/
inductive CelValue where
  | bool (b : Bool)
  | int (i : Int)
  | str (s : String)
deriving DecidableEq

/-- Declared parameter types of a compiled caveat's environment. -/
inductive CelType where
  | tBool
  | tInt
  | tStr
deriving DecidableEq

/-- Runtime type of a value, used to express type compatibility of a context
binding with a declared parameter. -/
def typeOf : CelValue → CelType
  | .bool _ => .tBool
  | .int _ => .tInt
  | .str _ => .tStr

/-- Compiled caveat AST. `var` nodes carry the CEL expression node id (used in
the `no such attribute` error text) and the parameter name. -/
inductive Expr where
  | const (v : CelValue)
  | var (id : Nat) (name : String)
  | and (a b : Expr)
  | or (a b : Expr)
  | not (a : Expr)
  | ge (a b : Expr)
  | eq (a b : Expr)
deriving DecidableEq

/-- Evaluation context: a partial assignment of runtime values to parameter
names (`cel.PartialVars(contextValues)` in the Go source). -/
def Ctx : Type := String → Option CelValue

/-- Result of three-valued evaluation of a subexpression: a concrete value, an
unknown blocked on the given missing parameter names (with the node id of the
first blocked attribute access), or an error value with its message. -/
inductive EvalRes where
  | known (v : CelValue)
  | unknown (id : Nat) (names : List String)
  | err (msg : String)
deriving DecidableEq

/-- Message of the CEL error value produced by a type mismatch. -/
def noSuchOverloadMsg : String := "no such overload"

/-- Message of the CEL evaluation failure produced when the configured cost
limit is exceeded. -/
def costLimitMsg : String := "operation cancelled: actual cost limit exceeded"

/-- Missing-name list of a combined unknown: the names of the left unknown
followed by the not-yet-seen names of the right one (first-encountered order,
deduplicated). Modelled from the spec, section 4.3. -/
def mergeNames (xs ys : List String) : List String :=
  xs ++ ys.filter (fun y => !(xs.contains y))

/-- Result of reading a variable: its bound value, or an unknown naming it. -/
def varRes (i : Nat) (n : String) : Option CelValue → EvalRes
  | some v => .known v
  | none => .unknown i [n]

/-- Whether `AND` short-circuits after its left operand: it does unless the
left operand is `true` or unknown (spec 4.2: `AND(a, b)` is `false` if either
operand is `false`, even if the other is unknown). -/
def andShort : EvalRes → Bool
  | .known (.bool true) => false
  | .unknown _ _ => false
  | _ => true

/-- Result of a short-circuited `AND`: a left error value propagates, a left
`false` decides the conjunction, a left non-boolean is a type error. -/
def andShortRes : EvalRes → EvalRes
  | .err m => .err m
  | .known (.bool false) => .known (.bool false)
  | _ => .err noSuchOverloadMsg

/-- Result of `AND` when the left operand is `true` or unknown, given the
right operand's result (Kleene conjunction with left-to-right evaluation). -/
def andCombine : EvalRes → EvalRes → EvalRes
  | _, .err m => .err m
  | .known _, .known (.bool bb) => .known (.bool bb)
  | .known _, .known _ => .err noSuchOverloadMsg
  | .known _, .unknown j ms => .unknown j ms
  | .unknown _ _, .known (.bool false) => .known (.bool false)
  | .unknown i ns, .known (.bool true) => .unknown i ns
  | .unknown _ _, .known _ => .err noSuchOverloadMsg
  | .unknown i ns, .unknown _ ms => .unknown i (mergeNames ns ms)
  | .err m, _ => .err m

/-- Whether `OR` short-circuits after its left operand: it does unless the
left operand is `false` or unknown. -/
def orShort : EvalRes → Bool
  | .known (.bool false) => false
  | .unknown _ _ => false
  | _ => true

/-- Result of a short-circuited `OR`. -/
def orShortRes : EvalRes → EvalRes
  | .err m => .err m
  | .known (.bool true) => .known (.bool true)
  | _ => .err noSuchOverloadMsg

/-- Result of `OR` when the left operand is `false` or unknown, given the
right operand's result (Kleene disjunction with left-to-right evaluation). -/
def orCombine : EvalRes → EvalRes → EvalRes
  | _, .err m => .err m
  | .known _, .known (.bool bb) => .known (.bool bb)
  | .known _, .known _ => .err noSuchOverloadMsg
  | .known _, .unknown j ms => .unknown j ms
  | .unknown _ _, .known (.bool true) => .known (.bool true)
  | .unknown i ns, .known (.bool false) => .unknown i ns
  | .unknown _ _, .known _ => .err noSuchOverloadMsg
  | .unknown i ns, .unknown _ ms => .unknown i (mergeNames ns ms)
  | .err m, _ => .err m

/-- Result of `NOT` given its operand's result. -/
def notRes : EvalRes → EvalRes
  | .err m => .err m
  | .known (.bool bb) => .known (.bool !bb)
  | .known _ => .err noSuchOverloadMsg
  | .unknown i ns => .unknown i ns

/-- Integer `>=` comparison; any other operand types are a type error. -/
def geOp : CelValue → CelValue → EvalRes
  | .int x, .int y => .known (.bool (decide (y ≤ x)))
  | _, _ => .err noSuchOverloadMsg

/-- Structural equality of values. -/
def eqOp (x y : CelValue) : EvalRes := .known (.bool (decide (x = y)))

/-- Lifting of a binary operation on concrete values to evaluation results:
errors propagate left-to-right, unknowns combine, otherwise the operation is
applied. -/
def binRes (f : CelValue → CelValue → EvalRes) : EvalRes → EvalRes → EvalRes
  | .err m, _ => .err m
  | _, .err m => .err m
  | .unknown i ns, .unknown _ ms => .unknown i (mergeNames ns ms)
  | .unknown i ns, _ => .unknown i ns
  | _, .unknown j ms => .unknown j ms
  | .known x, .known y => f x y

/-- Three-valued evaluation of an expression against a partial context.
Modelled from the spec, section 4.2: scalar leaves read the context, boolean
connectives use three-valued logic with left-to-right short-circuit, a type
error unrelated to unbound variables is an error value. -/
def eval3 (ctx : Ctx) : Expr → EvalRes
  | .const v => .known v
  | .var i n => varRes i n (ctx n)
  | .and a b =>
    if andShort (eval3 ctx a) then andShortRes (eval3 ctx a)
    else andCombine (eval3 ctx a) (eval3 ctx b)
  | .or a b =>
    if orShort (eval3 ctx a) then orShortRes (eval3 ctx a)
    else orCombine (eval3 ctx a) (eval3 ctx b)
  | .not a => notRes (eval3 ctx a)
  | .ge a b => binRes geOp (eval3 ctx a) (eval3 ctx b)
  | .eq a b => binRes eqOp (eval3 ctx a) (eval3 ctx b)

/-- Cost units consumed by evaluating an expression: one unit per variable
access and per visited operator node, with nothing charged for a subexpression
skipped by short-circuiting. Modelled from the spec, section 4.2. -/
def costOf (ctx : Ctx) : Expr → Nat
  | .const _ => 0
  | .var _ _ => 1
  | .and a b =>
    costOf ctx a + 1 + (if andShort (eval3 ctx a) then 0 else costOf ctx b)
  | .or a b =>
    costOf ctx a + 1 + (if orShort (eval3 ctx a) then 0 else costOf ctx b)
  | .not a => costOf ctx a + 1
  | .ge a b => costOf ctx a + costOf ctx b + 1
  | .eq a b => costOf ctx a + costOf ctx b + 1

/-- Charging one cost unit against an optional budget: with a budget of `k`,
evaluation aborts with the cost-limit failure as soon as the counter would
exceed `k`. Modelled from the spec, section 4.2. -/
def charge (limit : Option Nat) (c : Nat) : Except String Nat :=
  match limit with
  | none => .ok (c + 1)
  | some k => if k < c + 1 then .error costLimitMsg else .ok (c + 1)

/-- Budgeted evaluator: three-valued evaluation threading the cost counter,
aborting with a cost-limit failure (`Except.error`) as soon as the budget is
exceeded. Modelled from the spec, section 4.2. -/
def evalE (ctx : Ctx) (limit : Option Nat) : Expr → Nat → Except String (EvalRes × Nat)
  | .const v, c => .ok (.known v, c)
  | .var i n, c =>
    match charge limit c with
    | .error m => .error m
    | .ok c1 => .ok (varRes i n (ctx n), c1)
  | .and a b, c =>
    match evalE ctx limit a c with
    | .error m => .error m
    | .ok (ra, c1) =>
      match charge limit c1 with
      | .error m => .error m
      | .ok c2 =>
        if andShort ra then .ok (andShortRes ra, c2)
        else
          match evalE ctx limit b c2 with
          | .error m => .error m
          | .ok (rb, c3) => .ok (andCombine ra rb, c3)
  | .or a b, c =>
    match evalE ctx limit a c with
    | .error m => .error m
    | .ok (ra, c1) =>
      match charge limit c1 with
      | .error m => .error m
      | .ok c2 =>
        if orShort ra then .ok (orShortRes ra, c2)
        else
          match evalE ctx limit b c2 with
          | .error m => .error m
          | .ok (rb, c3) => .ok (orCombine ra rb, c3)
  | .not a, c =>
    match evalE ctx limit a c with
    | .error m => .error m
    | .ok (ra, c1) =>
      match charge limit c1 with
      | .error m => .error m
      | .ok c2 => .ok (notRes ra, c2)
  | .ge a b, c =>
    match evalE ctx limit a c with
    | .error m => .error m
    | .ok (ra, c1) =>
      match evalE ctx limit b c1 with
      | .error m => .error m
      | .ok (rb, c2) =>
        match charge limit c2 with
        | .error m => .error m
        | .ok c3 => .ok (binRes geOp ra rb, c3)
  | .eq a b, c =>
    match evalE ctx limit a c with
    | .error m => .error m
    | .ok (ra, c1) =>
      match evalE ctx limit b c1 with
      | .error m => .error m
      | .ok (rb, c2) =>
        match charge limit c2 with
        | .error m => .error m
        | .ok c3 => .ok (binRes eqOp ra rb, c3)

/-! ### Error-message formatting and sniffing

The Go wrapper detects a partial evaluation by inspecting the CEL error text
with `strings.Contains(err.Error(), "no such attribute")` and the anchored
regular expression `^no such attribute: id: (.+), names: \[(.+)\]$`
(`noSuchAttributeErrMessage`), then splits the bracketed capture on spaces.
Strings are modelled through their character lists. -/

/-- Splitter on a non-empty character sequence (the list-level behaviour of
Go's `strings.Split`): every occurrence of `sep` separates fields, empty
fields included. -/
def splitSeq (sep : List Char) : List Char → List (List Char)
  | [] => [[]]
  | c :: cs =>
    if sep ≠ [] ∧ sep.isPrefixOf (c :: cs) then
      [] :: splitSeq sep ((c :: cs).drop sep.length)
    else
      match splitSeq sep cs with
      | [] => [[c]]
      | h :: t => (c :: h) :: t
termination_by l => l.length
decreasing_by
  · simp only [List.length_drop, List.length_cons]
    have hs : sep.length ≠ 0 := by
      intro h0
      exact (by assumption : sep ≠ [] ∧ _).1 (List.eq_nil_of_length_eq_zero h0)
    omega
  · simp

/-- Occurrence of `pat` as a contiguous subsequence of `l`. -/
def isInfixOfSeq (pat : List Char) : List Char → Bool
  | [] => pat.isEmpty
  | c :: cs => pat.isPrefixOf (c :: cs) || isInfixOfSeq pat cs

/-- Containment of `pat` in `s` (Go's `strings.Contains`). -/
def goContains (s pat : String) : Bool := isInfixOfSeq pat.toList s.toList

/-- Go's `strings.Split(s, " ")`. -/
def goSplitSpace (s : String) : List String :=
  (splitSeq [' '] s.toList).map String.mk

/-- Characters of the fixed prefix of the `no such attribute` error text. -/
def nsaPrefix : List Char := "no such attribute: id: ".toList

/-- Characters of the separator between the two captured groups. -/
def nsaSepTail : List Char := " names: [".toList

/-- Characters of the full separator `, names: [`. -/
def nsaSep : List Char := ',' :: nsaSepTail

/-- Decimal digit characters of a natural number, fuel-driven. -/
def natCharsAux : Nat → Nat → List Char → List Char
  | 0, _, acc => acc
  | fuel + 1, n, acc =>
    if n = 0 then acc else natCharsAux fuel (n / 10) (Nat.digitChar (n % 10) :: acc)

/-- Decimal digit characters of a natural number. -/
def natChars (n : Nat) : List Char := if n = 0 then ['0'] else natCharsAux n n []

/-- Space-joined character list of a list of names. -/
def joinChars (ns : List String) : List Char :=
  List.intercalate [' '] (ns.map String.toList)

/-- Error text of the CEL unknown-attribute error, carrying the node id of the
first blocked attribute access and the missing parameter names. Modelled from
the spec, section 4.3 (the shape of the blocking signal: the attribute
identifier and the names at the access point). -/
def renderNoSuchAttr (i : Nat) (ns : List String) : String :=
  ⟨nsaPrefix ++ natChars i ++ nsaSep ++ joinChars ns ++ [']']⟩

/-- All decompositions `l = a ++ sep ++ b` of a list around an occurrence of
`sep` (assumed non-empty), as pairs `(a, b)` ordered by increasing length of
`a` — the leftmost occurrence first. These are exactly the split points a
backtracking regex engine explores for `(.+)` followed by the literal
`sep`. -/
def splitsOn (sep : List Char) : List Char → List (List Char × List Char)
  | [] => []
  | c :: cs =>
    (if sep.isPrefixOf (c :: cs) then [([], (c :: cs).drop sep.length)] else []) ++
    (splitsOn sep cs).map (fun p => (c :: p.1, p.2))

/-- Whether a candidate decomposition `(a, tail)` of the text after the fixed
prefix completes a match of `(.+), names: \[(.+)\]$`: the first capture `a` is
non-empty and newline-free (`.` does not match a newline), and `tail` is the
second capture — also non-empty and newline-free — followed by the final
`]`. -/
def nsaValid (p : List Char × List Char) : Bool :=
  !p.1.isEmpty && !p.1.contains '\n' && (p.2.getLast? == some ']') &&
    !p.2.dropLast.isEmpty && !p.2.dropLast.contains '\n'

/-- Matcher for the Go regular expression
`^no such attribute: id: (.+), names: \[(.+)\]$` with Go's leftmost-first
submatch semantics: after the anchored literal prefix, the greedy first group
takes the longest candidate that lets the rest of the pattern match,
backtracking to earlier `, names: [` occurrences when the tail fails (for
example when the trailing capture would be empty). The last valid candidate
in increasing first-capture order is exactly that choice. -/
def noSuchAttributeMatchL (l : List Char) : Option (String × String) :=
  if nsaPrefix.isPrefixOf l then
    match ((splitsOn nsaSep (l.drop nsaPrefix.length)).filter nsaValid).getLast? with
    | some p => some (⟨p.1⟩, ⟨p.2.dropLast⟩)
    | none => none
  else none

/-- Matcher at the string level, applied to the error text. -/
def noSuchAttributeMatch (msg : String) : Option (String × String) :=
  noSuchAttributeMatchL msg.toList

/-! ### Data model of the wrapper -/

/-- Compiled caveat consumed by the evaluator. Modelled from the spec, section
3 (`CompiledExpression`): the struct itself is defined in the repository's
compiler package, outside the given sources; its fields `celEnv`, `ast`,
`name` are fixed by the positional construction on line 53 of `eval.go`. -/
structure CompiledCaveat where
  celEnv : List (String × CelType)
  ast : Expr
  name : String

/-- Evaluated value stored on a result (`ref.Val` in the Go source): a
concrete value, CEL's unknown value, or a CEL error value. -/
inductive RefVal where
  | concrete (v : CelValue)
  | unknownVal (id : Nat) (names : List String)
  | errVal (msg : String)
deriving DecidableEq

/-- Evaluation state snapshot (`*cel.EvalDetails`); the pruner consumes the
partial-variable state recorded during evaluation, modelled as the context the
evaluation ran against. -/
def EvalDetails : Type := Ctx

/-- EvaluationConfig is configuration given to an EvaluateCaveatWithConfig
call; `MaxCost` is the max cost of the caveat to be executed (Go `uint64`). -/
structure EvaluationConfig where
  MaxCost : Nat

/-- CaveatResult holds the result of evaluating a caveat. Fields are those of
the Go struct; the Go `isPartial` field is named `isPartialFlag` here, and a
Go `nil` name slice is modelled as `[]`. -/
structure CaveatResult where
  val : Option RefVal
  details : EvalDetails
  parentCaveat : CompiledCaveat
  contextValues : Ctx
  missingVarNames : List String
  isPartialFlag : Bool

/-- Value returns the computed value for the result; `none` models the panic
of the unchecked Go type assertion `cr.val.Value().(bool)` (including the nil
dereference when no value is present). -/
def CaveatResult.Value (cr : CaveatResult) : Option Bool :=
  if cr.isPartialFlag then some false
  else
    match cr.val with
    | some (.concrete (.bool b)) => some b
    | _ => none

/-- IsPartial returns true if the caveat was only partially evaluated. -/
def CaveatResult.IsPartial (cr : CaveatResult) : Bool := cr.isPartialFlag

/-- Names of the variables an expression reads, in syntactic order. -/
def varsOf : Expr → List String
  | .const _ => []
  | .var _ n => [n]
  | .and a b => varsOf a ++ varsOf b
  | .or a b => varsOf a ++ varsOf b
  | .not a => varsOf a
  | .ge a b => varsOf a ++ varsOf b
  | .eq a b => varsOf a ++ varsOf b

/-- Pruned residual of an expression: every subtree fully decided under the
recorded state is replaced by its constant value, everything else is rebuilt
structurally. Modelled from the spec, section 4.3 (`interpreter.PruneAst`). -/
def prune (state : Ctx) : Expr → Expr
  | .const v => .const v
  | .var i n =>
    match eval3 state (.var i n) with
    | .known v => .const v
    | _ => .var i n
  | .and a b =>
    match eval3 state (.and a b) with
    | .known v => .const v
    | _ => .and (prune state a) (prune state b)
  | .or a b =>
    match eval3 state (.or a b) with
    | .known v => .const v
    | _ => .or (prune state a) (prune state b)
  | .not a =>
    match eval3 state (.not a) with
    | .known v => .const v
    | _ => .not (prune state a)
  | .ge a b =>
    match eval3 state (.ge a b) with
    | .known v => .const v
    | _ => .ge (prune state a) (prune state b)
  | .eq a b =>
    match eval3 state (.eq a b) with
    | .known v => .const v
    | _ => .eq (prune state a) (prune state b)

/-- PartialValue returns the partially evaluated caveat. Only applies if
IsPartial is true. Translated from `eval.go` lines 47-54: the residual keeps
the parent's `celEnv` and `name` unchanged and prunes the parent's AST against
the recorded evaluation state. -/
def CaveatResult.PartialValue (cr : CaveatResult) : Except String CompiledCaveat :=
  if !cr.isPartialFlag then .error "result is fully evaluated"
  else .ok ⟨cr.parentCaveat.celEnv, prune cr.details cr.parentCaveat.ast, cr.parentCaveat.name⟩

/-- ContextValues returns the context values used when computing this result. -/
def CaveatResult.ContextValues (cr : CaveatResult) : Ctx := cr.contextValues

/-- MissingVarNames returns the name(s) of the missing variables. Translated
from `eval.go` lines 67-73. -/
def CaveatResult.MissingVarNames (cr : CaveatResult) : Except String (List String) :=
  if !cr.isPartialFlag then .error "result is fully evaluated"
  else .ok cr.missingVarNames

/-- Outcome of `prg.Eval(pvars)`: the returned value (possibly absent) and the
returned error (possibly absent). A decided evaluation yields a value and no
error; an unknown root yields CEL's unknown value together with the
`no such attribute` error text; an error value yields itself and its message;
exceeding the cost budget is an unsuccessful evaluation with no value.
Modelled from the spec, sections 4.2 and 4.3. -/
def progEval (caveat : CompiledCaveat) (ctx : Ctx) (limit : Option Nat) :
    Option RefVal × Option String :=
  match evalE ctx limit caveat.ast 0 with
  | .error m => (none, some m)
  | .ok (.known v, _) => (some (.concrete v), none)
  | .ok (.unknown i ns, _) => (some (.unknownVal i ns), some (renderNoSuchAttr i ns))
  | .ok (.err m, _) => (some (.errVal m), some m)

/-- Error handling and result construction of `EvaluateCaveatWithConfig`,
translated from `eval.go` lines 107-148: on an error, a non-nil value whose
error text contains `no such attribute` is a partial result — with the names
split out of the regex capture when the full pattern matches, and a nil name
list otherwise; every other error is returned to the caller; without an error
the result is decided. -/
def handleEvalResult (caveat : CompiledCaveat) (contextValues : Ctx)
    (val : Option RefVal) (details : EvalDetails) (err : Option String) :
    Except String CaveatResult :=
  match err with
  | some errMsg =>
    if val.isSome && goContains errMsg "no such attribute" then
      match noSuchAttributeMatch errMsg with
      | some found =>
        .ok ⟨val, details, caveat, contextValues, goSplitSpace found.2, true⟩
      | none =>
        .ok ⟨val, details, caveat, contextValues, [], true⟩
    else .error errMsg
  | none => .ok ⟨val, details, caveat, contextValues, [], false⟩

/-- EvaluateCaveatWithConfig evaluates the compiled caveat with the specified
values, and returns the result or an error. Translated from `eval.go` lines
83-148: a configured positive `MaxCost` bounds the evaluation cost, a `none`
config or a zero `MaxCost` leaves it unbounded. -/
def EvaluateCaveatWithConfig (caveat : CompiledCaveat) (contextValues : Ctx)
    (config : Option EvaluationConfig) : Except String CaveatResult :=
  let limit : Option Nat :=
    match config with
    | some cfg => if 0 < cfg.MaxCost then some cfg.MaxCost else none
    | none => none
  match progEval caveat contextValues limit with
  | (val, errOpt) => handleEvalResult caveat contextValues val contextValues errOpt

/-- EvaluateCaveat evaluates the compiled caveat with the specified values,
and returns the result or an error. -/
def EvaluateCaveat (caveat : CompiledCaveat) (contextValues : Ctx) :
    Except String CaveatResult :=
  EvaluateCaveatWithConfig caveat contextValues none

/-! ### Well-formedness and auxiliary notions used by the theorems -/

/-- Identifier characters of CEL parameter names. -/
def identChar (c : Char) : Bool := c.isAlphanum || c == '_'

/-- Well-formed parameter name: non-empty and made of identifier characters. -/
def wfName (n : String) : Bool := !n.toList.isEmpty && n.toList.all identChar

/-- Well-formed expression: every variable it mentions has a well-formed
name. -/
def wfExpr : Expr → Bool
  | .const _ => true
  | .var _ n => wfName n
  | .and a b => wfExpr a && wfExpr b
  | .or a b => wfExpr a && wfExpr b
  | .not a => wfExpr a
  | .ge a b => wfExpr a && wfExpr b
  | .eq a b => wfExpr a && wfExpr b

/-- Environment restricted to the parameters among the given names — the
environment the specification prescribes for a residual expression. -/
def restrictEnv (env : List (String × CelType)) (names : List String) :
    List (String × CelType) :=
  env.filter (fun p => names.contains p.1)

/-- Context extension order: every binding of `c` is kept by `c2`. -/
def ctxLE (c c2 : Ctx) : Prop := ∀ n v, c n = some v → c2 n = some v

/-- Merge of two contexts, the first taking precedence. -/
def mergeCtx (c1 c2 : Ctx) : Ctx := fun n =>
  match c1 n with
  | some v => some v
  | none => c2 n


/-! ### Lemmas about the error-text machinery -/

theorem intercalate_singleton (sep a : List Char) : List.intercalate sep [a] = a := by
  simp [List.intercalate, List.intersperse]

theorem intercalate_cons2 (sep a b : List Char) (t : List (List Char)) :
    List.intercalate sep (a :: b :: t) = a ++ sep ++ List.intercalate sep (b :: t) := by
  simp [List.intercalate, List.intersperse]

theorem splitSeq_not_infix (sep l : List Char) (h : ¬ sep <:+: l) : splitSeq sep l = [l] := by
  induction l with
  | nil => simp [splitSeq]
  | cons c cs ih =>
    rw [splitSeq]
    have hnp : ¬ (sep ≠ [] ∧ sep.isPrefixOf (c :: cs) = true) := by
      rintro ⟨hne, hp⟩
      exact h (List.isPrefixOf_iff_prefix.mp hp).isInfix
    rw [if_neg hnp, ih (fun hi => h (hi.trans (List.suffix_cons c cs).isInfix))]

theorem infix_head_mem (d : Char) (s l : List Char) (h : (d :: s) <:+: l) : d ∈ l :=
  h.subset (List.mem_cons_self d s)

theorem splitSeq_append (d : Char) (s a b : List Char) (hd : d ∉ a) :
    splitSeq (d :: s) (a ++ (d :: s) ++ b) = a :: splitSeq (d :: s) b := by
  induction a with
  | nil =>
    show splitSeq (d :: s) ((d :: s) ++ b) = [] :: splitSeq (d :: s) b
    have hcons : (d :: s) ++ b = d :: (s ++ b) := rfl
    rw [hcons, splitSeq]
    have hpre : (d :: s).isPrefixOf (d :: (s ++ b)) = true := by
      rw [← hcons]
      exact List.isPrefixOf_iff_prefix.mpr (List.prefix_append _ _)
    rw [if_pos ⟨List.cons_ne_nil d s, hpre⟩]
    have hdrop : (d :: (s ++ b)).drop (d :: s).length = b := by
      rw [← hcons]
      exact List.drop_left _ _
    rw [hdrop]
  | cons c a2 ih =>
    have hda2 : d ∉ a2 := fun hm => hd (List.mem_cons_of_mem c hm)
    have hdc : d ≠ c := fun he => hd (he ▸ List.mem_cons_self c a2)
    show splitSeq (d :: s) (c :: (a2 ++ (d :: s) ++ b)) = (c :: a2) :: splitSeq (d :: s) b
    rw [splitSeq]
    have hnp : ¬ ((d :: s) ≠ [] ∧ (d :: s).isPrefixOf (c :: (a2 ++ (d :: s) ++ b)) = true) := by
      rintro ⟨-, hp⟩
      have := (List.cons_prefix_cons.mp (List.isPrefixOf_iff_prefix.mp hp)).1
      exact hdc this
    rw [if_neg hnp, ih hda2]

theorem splitSeq_intercalate (d : Char) (nss : List (List Char)) (h0 : nss ≠ [])
    (h : ∀ l2 ∈ nss, d ∉ l2) : splitSeq [d] (List.intercalate [d] nss) = nss := by
  induction nss with
  | nil => exact absurd rfl h0
  | cons n t ih =>
    cases t with
    | nil =>
      rw [intercalate_singleton]
      refine splitSeq_not_infix _ _ (fun hi => ?_)
      exact h n (List.mem_cons_self n []) (infix_head_mem d [] n hi)
    | cons m t2 =>
      rw [intercalate_cons2]
      have ha : splitSeq [d] (n ++ [d] ++ List.intercalate [d] (m :: t2)) =
          n :: splitSeq [d] (List.intercalate [d] (m :: t2)) :=
        splitSeq_append d [] n _ (h n (List.mem_cons_self n _))
      rw [ha, ih (List.cons_ne_nil m t2) (fun l2 hl2 => h l2 (List.mem_cons_of_mem n hl2))]

theorem isInfixOfSeq_of_prefix (pat l : List Char) (h : pat <+: l) :
    isInfixOfSeq pat l = true := by
  cases l with
  | nil => simp [isInfixOfSeq, List.isEmpty, List.prefix_nil.mp h]
  | cons c cs =>
    simp only [isInfixOfSeq, Bool.or_eq_true]
    exact Or.inl (List.isPrefixOf_iff_prefix.mpr h)

theorem mk_toList (s : String) : String.mk s.toList = s := rfl

theorem digitChar_isDigit : ∀ m, m < 10 → (Nat.digitChar m).isDigit = true := by decide

theorem natCharsAux_mem (f : Nat) : ∀ (n : Nat) (acc : List Char) (c : Char),
    c ∈ natCharsAux f n acc → c.isDigit = true ∨ c ∈ acc := by
  induction f with
  | zero => intro n acc c hc; exact Or.inr hc
  | succ f ih =>
    intro n acc c hc
    rw [natCharsAux] at hc
    by_cases h0 : n = 0
    · rw [if_pos h0] at hc; exact Or.inr hc
    · rw [if_neg h0] at hc
      rcases ih _ _ _ hc with h | h
      · exact Or.inl h
      · rcases List.mem_cons.mp h with he | h2
        · exact Or.inl (he ▸ digitChar_isDigit _ (Nat.mod_lt n (by norm_num)))
        · exact Or.inr h2

theorem natChars_isDigit (n : Nat) (c : Char) (hc : c ∈ natChars n) : c.isDigit = true := by
  unfold natChars at hc
  by_cases h0 : n = 0
  · rw [if_pos h0] at hc
    simp only [List.mem_singleton] at hc
    subst hc; decide
  · rw [if_neg h0] at hc
    rcases natCharsAux_mem n n [] c hc with h | h
    · exact h
    · simp at h

theorem natCharsAux_ne_nil (f : Nat) : ∀ (n : Nat) (acc : List Char), acc ≠ [] →
    natCharsAux f n acc ≠ [] := by
  induction f with
  | zero => intro n acc h; exact h
  | succ f ih =>
    intro n acc h
    rw [natCharsAux]
    by_cases h0 : n = 0
    · rw [if_pos h0]; exact h
    · rw [if_neg h0]; exact ih _ _ (List.cons_ne_nil _ _)

theorem natChars_ne_nil (n : Nat) : natChars n ≠ [] := by
  unfold natChars
  by_cases h0 : n = 0
  · rw [if_pos h0]; exact List.cons_ne_nil _ _
  · rw [if_neg h0]
    cases n with
    | zero => exact absurd rfl h0
    | succ f =>
      rw [natCharsAux, if_neg h0]
      exact natCharsAux_ne_nil _ _ _ (List.cons_ne_nil _ _)

theorem mem_joinChars (c : Char) (ns : List String) (hc : c ∈ joinChars ns) :
    c = ' ' ∨ ∃ s ∈ ns, c ∈ s.toList := by
  induction ns with
  | nil => simp [joinChars, List.intercalate] at hc
  | cons n t ih =>
    cases t with
    | nil =>
      rw [joinChars, List.map_cons, List.map_nil, intercalate_singleton] at hc
      exact Or.inr ⟨n, List.mem_cons_self n [], hc⟩
    | cons m t2 =>
      rw [joinChars, List.map_cons, List.map_cons, intercalate_cons2] at hc
      rcases List.mem_append.mp hc with h1 | h2
      · rcases List.mem_append.mp h1 with ha | hb
        · exact Or.inr ⟨n, List.mem_cons_self n _, ha⟩
        · simp only [List.mem_singleton] at hb; exact Or.inl hb
      · rcases ih h2 with h | ⟨s, hs, hcs⟩
        · exact Or.inl h
        · exact Or.inr ⟨s, List.mem_cons_of_mem n hs, hcs⟩

theorem wfName_mem_ident (n : String) (h : wfName n = true) (c : Char) (hc : c ∈ n.toList) :
    identChar c = true := by
  unfold wfName at h
  exact List.all_eq_true.mp (Bool.and_elim_right h) c hc

theorem wfName_toList_ne_nil (n : String) (h : wfName n = true) : n.toList ≠ [] := by
  unfold wfName at h
  have := Bool.and_elim_left h
  simpa [List.isEmpty_iff] using this

theorem joinChars_ne_nil (ns : List String) (h0 : ns ≠ [])
    (hwf : ∀ n ∈ ns, wfName n = true) : joinChars ns ≠ [] := by
  cases ns with
  | nil => exact absurd rfl h0
  | cons n t =>
    cases t with
    | nil =>
      rw [joinChars, List.map_cons, List.map_nil, intercalate_singleton]
      exact wfName_toList_ne_nil n (hwf n (List.mem_cons_self n []))
    | cons m t2 =>
      rw [joinChars, List.map_cons, List.map_cons, intercalate_cons2]
      simp only [ne_eq, List.append_eq_nil, List.cons_ne_self, and_false, false_and,
        not_false_eq_true]

theorem not_mem_joinChars (ns : List String) (hwf : ∀ n ∈ ns, wfName n = true)
    (c : Char) (hc : identChar c = false) (hcs : c ≠ ' ') : c ∉ joinChars ns := by
  intro hmem
  rcases mem_joinChars c ns hmem with h | ⟨s, hs, hcs2⟩
  · exact hcs h
  · rw [wfName_mem_ident s (hwf s hs) c hcs2] at hc; cases hc

theorem comma_not_in_natChars (i : Nat) : ',' ∉ natChars i := by
  intro h
  have := natChars_isDigit i ',' h
  simp at this

theorem identChar_comma : identChar ',' = false := by decide

theorem identChar_space : identChar ' ' = false := by decide

theorem comma_not_in_joinChars (ns : List String) (hwf : ∀ n ∈ ns, wfName n = true) :
    ',' ∉ joinChars ns :=
  not_mem_joinChars ns hwf ',' identChar_comma (by decide)

theorem contains_eq_false_of_not_mem (c : Char) (l : List Char) (h : c ∉ l) :
    l.contains c = false := by
  cases hc : l.contains c
  · rfl
  · exact absurd (by simpa using hc) h

theorem splitsOn_nil_of_not_mem (d : Char) (s l : List Char) (h : d ∉ l) :
    splitsOn (d :: s) l = [] := by
  induction l with
  | nil => rfl
  | cons c cs ih =>
    rw [splitsOn]
    have hnp : (d :: s).isPrefixOf (c :: cs) = false := by
      cases hp : (d :: s).isPrefixOf (c :: cs)
      · rfl
      · have hdc := (List.cons_prefix_cons.mp (List.isPrefixOf_iff_prefix.mp hp)).1
        exact absurd (hdc ▸ List.mem_cons_self c cs) h
    rw [hnp]
    simp only [Bool.false_eq_true, if_false, List.nil_append]
    rw [ih (fun hm => h (List.mem_cons_of_mem c hm))]
    rfl

theorem splitsOn_single (d : Char) (s a b : List Char) (ha : d ∉ a) (hs : d ∉ s)
    (hb : d ∉ b) : splitsOn (d :: s) (a ++ (d :: s) ++ b) = [(a, b)] := by
  induction a with
  | nil =>
    show splitsOn (d :: s) ((d :: s) ++ b) = [([], b)]
    have hcons : (d :: s) ++ b = d :: (s ++ b) := rfl
    rw [hcons, splitsOn]
    have hpre : (d :: s).isPrefixOf (d :: (s ++ b)) = true := by
      rw [← hcons]
      exact List.isPrefixOf_iff_prefix.mpr (List.prefix_append _ _)
    rw [hpre]
    simp only [if_true]
    have hdrop : (d :: (s ++ b)).drop (d :: s).length = b := by
      rw [← hcons]
      exact List.drop_left _ _
    rw [hdrop]
    rw [splitsOn_nil_of_not_mem d s (s ++ b)
      (fun hm => (List.mem_append.mp hm).elim hs hb)]
    rfl
  | cons c a2 ih =>
    have hda2 : d ∉ a2 := fun hm => ha (List.mem_cons_of_mem c hm)
    have hdc : d ≠ c := fun he => ha (he ▸ List.mem_cons_self c a2)
    show splitsOn (d :: s) (c :: (a2 ++ (d :: s) ++ b)) = [(c :: a2, b)]
    rw [splitsOn]
    have hnp : (d :: s).isPrefixOf (c :: (a2 ++ (d :: s) ++ b)) = false := by
      cases hp : (d :: s).isPrefixOf (c :: (a2 ++ (d :: s) ++ b))
      · rfl
      · exact absurd (List.cons_prefix_cons.mp (List.isPrefixOf_iff_prefix.mp hp)).1 hdc
    rw [hnp]
    simp only [Bool.false_eq_true, if_false, List.nil_append]
    rw [ih hda2]
    rfl

theorem identChar_newline : identChar (Char.ofNat 10) = false := by decide

theorem newline_not_in_natChars (i : Nat) : (Char.ofNat 10) ∉ natChars i := by
  intro h
  have := natChars_isDigit i _ h
  simp at this

theorem matchRender (i : Nat) (ns : List String) (h0 : ns ≠ [])
    (hwf : ∀ n ∈ ns, wfName n = true) :
    noSuchAttributeMatch (renderNoSuchAttr i ns) = some (⟨natChars i⟩, ⟨joinChars ns⟩) := by
  unfold noSuchAttributeMatch renderNoSuchAttr
  have htl : (String.mk (nsaPrefix ++ natChars i ++ nsaSep ++ joinChars ns ++ [']'])).toList
      = nsaPrefix ++ natChars i ++ nsaSep ++ joinChars ns ++ [']'] := rfl
  rw [htl]
  unfold noSuchAttributeMatchL
  have hpre : nsaPrefix.isPrefixOf
      (nsaPrefix ++ natChars i ++ nsaSep ++ joinChars ns ++ [']']) = true := by
    apply List.isPrefixOf_iff_prefix.mpr
    have hassoc : nsaPrefix ++ natChars i ++ nsaSep ++ joinChars ns ++ [']']
        = nsaPrefix ++ (natChars i ++ nsaSep ++ joinChars ns ++ [']']) := by
      simp [List.append_assoc]
    rw [hassoc]
    exact List.prefix_append _ _
  rw [hpre]
  simp only [if_true]
  have hdrop : (nsaPrefix ++ natChars i ++ nsaSep ++ joinChars ns ++ [']']).drop
      nsaPrefix.length = natChars i ++ nsaSep ++ (joinChars ns ++ [']']) := by
    have hassoc : nsaPrefix ++ natChars i ++ nsaSep ++ joinChars ns ++ [']']
        = nsaPrefix ++ (natChars i ++ nsaSep ++ (joinChars ns ++ [']'])) := by
      simp [List.append_assoc]
    rw [hassoc]
    exact List.drop_left _ _
  rw [hdrop]
  have hsplit : splitsOn nsaSep (natChars i ++ nsaSep ++ (joinChars ns ++ [']']))
      = [(natChars i, joinChars ns ++ [']'])] := by
    show splitsOn (',' :: nsaSepTail)
        (natChars i ++ (',' :: nsaSepTail) ++ (joinChars ns ++ [']']))
        = [(natChars i, joinChars ns ++ [']'])]
    refine splitsOn_single ',' nsaSepTail _ _ (comma_not_in_natChars i) (by decide) ?_
    intro hm
    rcases List.mem_append.mp hm with h | h
    · exact comma_not_in_joinChars ns hwf h
    · simp at h
  rw [hsplit]
  have hvalid : nsaValid (natChars i, joinChars ns ++ [']']) = true := by
    unfold nsaValid
    have h1 : (natChars i).isEmpty = false := by
      rw [List.isEmpty_eq_false_iff_exists_mem]
      exact List.exists_mem_of_ne_nil _ (natChars_ne_nil i)
    have h2 : (natChars i).contains (Char.ofNat 10) = false :=
      contains_eq_false_of_not_mem _ _ (newline_not_in_natChars i)
    have h3 : (joinChars ns ++ [']']).getLast? = some ']' := List.getLast?_concat _
    have h4 : (joinChars ns ++ [']']).dropLast = joinChars ns := List.dropLast_concat
    have h5 : (joinChars ns).isEmpty = false := by
      rw [List.isEmpty_eq_false_iff_exists_mem]
      exact List.exists_mem_of_ne_nil _ (joinChars_ne_nil ns h0 hwf)
    have h6 : (joinChars ns).contains (Char.ofNat 10) = false := by
      refine contains_eq_false_of_not_mem _ _
        (not_mem_joinChars ns hwf _ identChar_newline (by decide))
    show (!(natChars i).isEmpty && !(natChars i).contains (Char.ofNat 10) &&
        ((joinChars ns ++ [']']).getLast? == some ']') &&
        !(joinChars ns ++ [']']).dropLast.isEmpty &&
        !(joinChars ns ++ [']']).dropLast.contains (Char.ofNat 10)) = true
    rw [h1, h2, h3, h4, h5, h6]
    rfl
  rw [List.filter_cons_of_pos hvalid]
  simp only [List.filter_nil, List.getLast?_singleton]
  rw [List.dropLast_concat]

theorem goSplitSpace_joinChars (ns : List String) (h0 : ns ≠ [])
    (hwf : ∀ n ∈ ns, wfName n = true) : goSplitSpace ⟨joinChars ns⟩ = ns := by
  unfold goSplitSpace joinChars
  have htl : (String.mk (List.intercalate [' '] (ns.map String.toList))).toList
      = List.intercalate [' '] (ns.map String.toList) := rfl
  rw [htl]
  rw [splitSeq_intercalate ' ' (ns.map String.toList) (by simpa using h0)
    (fun l2 hl2 => by
      rcases List.mem_map.mp hl2 with ⟨s, hs, he⟩
      intro hsp
      rw [← he] at hsp
      have := wfName_mem_ident s (hwf s hs) ' ' hsp
      rw [identChar_space] at this
      cases this)]
  rw [List.map_map]
  have : (String.mk ∘ String.toList) = id := funext mk_toList
  rw [this, List.map_id]

theorem goContains_render (i : Nat) (ns : List String) :
    goContains (renderNoSuchAttr i ns) "no such attribute" = true := by
  unfold goContains renderNoSuchAttr
  apply isInfixOfSeq_of_prefix
  have hp : nsaPrefix = "no such attribute".toList ++ ": id: ".toList := by decide
  show "no such attribute".toList <+:
    (nsaPrefix ++ natChars i ++ nsaSep ++ joinChars ns ++ [']'])
  rw [hp]
  have : "no such attribute".toList ++ ": id: ".toList ++ natChars i ++ nsaSep
      ++ joinChars ns ++ [']'] = "no such attribute".toList ++ (": id: ".toList
      ++ natChars i ++ nsaSep ++ joinChars ns ++ [']']) := by
    simp [List.append_assoc]
  rw [this]
  exact List.prefix_append _ _


/-! ### Bridge between the budgeted evaluator and the pure three-valued evaluator -/

theorem evalE_none (ctx : Ctx) (e : Expr) : ∀ c0 : Nat,
    evalE ctx none e c0 = .ok (eval3 ctx e, c0 + costOf ctx e) := by
  induction e with
  | const v => intro c0; simp [evalE, eval3, costOf]
  | var i n => intro c0; simp [evalE, eval3, costOf, charge]
  | and a b iha ihb =>
    intro c0
    simp only [evalE, eval3, costOf, charge]
    rw [iha c0]
    cases hs : andShort (eval3 ctx a) with
    | true =>
      simp only [hs, if_true]
      have : c0 + (costOf ctx a + 1 + 0) = c0 + costOf ctx a + 1 := by omega
      rw [this]
    | false =>
      simp only [hs, Bool.false_eq_true, if_false]
      rw [ihb (c0 + costOf ctx a + 1)]
      have : c0 + (costOf ctx a + 1 + costOf ctx b)
          = c0 + costOf ctx a + 1 + costOf ctx b := by omega
      rw [this]
  | or a b iha ihb =>
    intro c0
    simp only [evalE, eval3, costOf, charge]
    rw [iha c0]
    cases hs : orShort (eval3 ctx a) with
    | true =>
      simp only [hs, if_true]
      have : c0 + (costOf ctx a + 1 + 0) = c0 + costOf ctx a + 1 := by omega
      rw [this]
    | false =>
      simp only [hs, Bool.false_eq_true, if_false]
      rw [ihb (c0 + costOf ctx a + 1)]
      have : c0 + (costOf ctx a + 1 + costOf ctx b)
          = c0 + costOf ctx a + 1 + costOf ctx b := by omega
      rw [this]
  | not a iha =>
    intro c0
    simp only [evalE, eval3, costOf, charge, iha]
    rw [Nat.add_assoc c0 (costOf ctx a) 1]
  | ge a b iha ihb =>
    intro c0
    simp only [evalE, eval3, costOf, charge, iha, ihb]
    have : c0 + (costOf ctx a + costOf ctx b + 1)
        = c0 + costOf ctx a + costOf ctx b + 1 := by omega
    rw [this]
  | eq a b iha ihb =>
    intro c0
    simp only [evalE, eval3, costOf, charge, iha, ihb]
    have : c0 + (costOf ctx a + costOf ctx b + 1)
        = c0 + costOf ctx a + costOf ctx b + 1 := by omega
    rw [this]

theorem evalE_bounded (ctx : Ctx) (k : Nat) (e : Expr) : ∀ c0 : Nat, c0 ≤ k →
    evalE ctx (some k) e c0 =
      if c0 + costOf ctx e ≤ k then .ok (eval3 ctx e, c0 + costOf ctx e)
      else .error costLimitMsg := by
  induction e with
  | const v =>
    intro c0 h
    simp only [evalE, eval3, costOf]
    rw [if_pos (show c0 + 0 ≤ k by omega), Nat.add_zero]
  | var i n =>
    intro c0 h
    simp only [evalE, eval3, costOf, charge]
    by_cases h1 : k < c0 + 1
    · simp only [if_pos h1]
      rw [if_neg (show ¬ (c0 + 1 ≤ k) by omega)]
    · simp only [if_neg h1]
      rw [if_pos (show c0 + 1 ≤ k by omega)]
  | and a b iha ihb =>
    intro c0 h
    simp only [evalE, eval3, costOf, charge]
    rw [iha c0 h]
    cases hs : andShort (eval3 ctx a) with
    | true =>
      simp only [hs, if_true]
      have he : c0 + (costOf ctx a + 1 + 0) = c0 + costOf ctx a + 1 := by omega
      rw [he]
      by_cases hA : c0 + costOf ctx a ≤ k
      · simp only [if_pos hA]
        by_cases h1 : k < c0 + costOf ctx a + 1
        · simp only [if_pos h1]
          rw [if_neg (show ¬ (c0 + costOf ctx a + 1 ≤ k) by omega)]
        · simp only [if_neg h1]
          simp only [hs, if_true]
          rw [if_pos (show c0 + costOf ctx a + 1 ≤ k by omega)]
      · simp only [if_neg hA]
        rw [if_neg (show ¬ (c0 + costOf ctx a + 1 ≤ k) by omega)]
    | false =>
      simp only [hs, Bool.false_eq_true, if_false]
      have he : c0 + (costOf ctx a + 1 + costOf ctx b)
          = c0 + costOf ctx a + 1 + costOf ctx b := by omega
      rw [he]
      by_cases hA : c0 + costOf ctx a ≤ k
      · simp only [if_pos hA]
        by_cases h1 : k < c0 + costOf ctx a + 1
        · simp only [if_pos h1]
          rw [if_neg (show ¬ (c0 + costOf ctx a + 1 + costOf ctx b ≤ k) by omega)]
        · simp only [if_neg h1]
          simp only [hs, Bool.false_eq_true, if_false]
          rw [ihb (c0 + costOf ctx a + 1) (by omega)]
          by_cases hB : c0 + costOf ctx a + 1 + costOf ctx b ≤ k
          · simp only [if_pos hB]
          · simp only [if_neg hB]
      · simp only [if_neg hA]
        rw [if_neg (show ¬ (c0 + costOf ctx a + 1 + costOf ctx b ≤ k) by omega)]
  | or a b iha ihb =>
    intro c0 h
    simp only [evalE, eval3, costOf, charge]
    rw [iha c0 h]
    cases hs : orShort (eval3 ctx a) with
    | true =>
      simp only [hs, if_true]
      have he : c0 + (costOf ctx a + 1 + 0) = c0 + costOf ctx a + 1 := by omega
      rw [he]
      by_cases hA : c0 + costOf ctx a ≤ k
      · simp only [if_pos hA]
        by_cases h1 : k < c0 + costOf ctx a + 1
        · simp only [if_pos h1]
          rw [if_neg (show ¬ (c0 + costOf ctx a + 1 ≤ k) by omega)]
        · simp only [if_neg h1]
          simp only [hs, if_true]
          rw [if_pos (show c0 + costOf ctx a + 1 ≤ k by omega)]
      · simp only [if_neg hA]
        rw [if_neg (show ¬ (c0 + costOf ctx a + 1 ≤ k) by omega)]
    | false =>
      simp only [hs, Bool.false_eq_true, if_false]
      have he : c0 + (costOf ctx a + 1 + costOf ctx b)
          = c0 + costOf ctx a + 1 + costOf ctx b := by omega
      rw [he]
      by_cases hA : c0 + costOf ctx a ≤ k
      · simp only [if_pos hA]
        by_cases h1 : k < c0 + costOf ctx a + 1
        · simp only [if_pos h1]
          rw [if_neg (show ¬ (c0 + costOf ctx a + 1 + costOf ctx b ≤ k) by omega)]
        · simp only [if_neg h1]
          simp only [hs, Bool.false_eq_true, if_false]
          rw [ihb (c0 + costOf ctx a + 1) (by omega)]
          by_cases hB : c0 + costOf ctx a + 1 + costOf ctx b ≤ k
          · simp only [if_pos hB]
          · simp only [if_neg hB]
      · simp only [if_neg hA]
        rw [if_neg (show ¬ (c0 + costOf ctx a + 1 + costOf ctx b ≤ k) by omega)]
  | not a iha =>
    intro c0 h
    simp only [evalE, eval3, costOf, charge]
    rw [iha c0 h]
    have he : c0 + (costOf ctx a + 1) = c0 + costOf ctx a + 1 := by omega
    rw [he]
    by_cases hA : c0 + costOf ctx a ≤ k
    · simp only [if_pos hA]
      by_cases h1 : k < c0 + costOf ctx a + 1
      · simp only [if_pos h1]
        rw [if_neg (show ¬ (c0 + costOf ctx a + 1 ≤ k) by omega)]
      · simp only [if_neg h1]
        rw [if_pos (show c0 + costOf ctx a + 1 ≤ k by omega)]
    · simp only [if_neg hA]
      rw [if_neg (show ¬ (c0 + costOf ctx a + 1 ≤ k) by omega)]
  | ge a b iha ihb =>
    intro c0 h
    simp only [evalE, eval3, costOf, charge]
    rw [iha c0 h]
    have he : c0 + (costOf ctx a + costOf ctx b + 1)
        = c0 + costOf ctx a + costOf ctx b + 1 := by omega
    rw [he]
    by_cases hA : c0 + costOf ctx a ≤ k
    · simp only [if_pos hA]
      rw [ihb (c0 + costOf ctx a) (by omega)]
      by_cases hB : c0 + costOf ctx a + costOf ctx b ≤ k
      · simp only [if_pos hB]
        by_cases h1 : k < c0 + costOf ctx a + costOf ctx b + 1
        · simp only [if_pos h1]
          rw [if_neg (show ¬ (c0 + costOf ctx a + costOf ctx b + 1 ≤ k) by omega)]
        · simp only [if_neg h1]
          rw [if_pos (show c0 + costOf ctx a + costOf ctx b + 1 ≤ k by omega)]
      · simp only [if_neg hB]
        rw [if_neg (show ¬ (c0 + costOf ctx a + costOf ctx b + 1 ≤ k) by omega)]
    · simp only [if_neg hA]
      rw [if_neg (show ¬ (c0 + costOf ctx a + costOf ctx b + 1 ≤ k) by omega)]
  | eq a b iha ihb =>
    intro c0 h
    simp only [evalE, eval3, costOf, charge]
    rw [iha c0 h]
    have he : c0 + (costOf ctx a + costOf ctx b + 1)
        = c0 + costOf ctx a + costOf ctx b + 1 := by omega
    rw [he]
    by_cases hA : c0 + costOf ctx a ≤ k
    · simp only [if_pos hA]
      rw [ihb (c0 + costOf ctx a) (by omega)]
      by_cases hB : c0 + costOf ctx a + costOf ctx b ≤ k
      · simp only [if_pos hB]
        by_cases h1 : k < c0 + costOf ctx a + costOf ctx b + 1
        · simp only [if_pos h1]
          rw [if_neg (show ¬ (c0 + costOf ctx a + costOf ctx b + 1 ≤ k) by omega)]
        · simp only [if_neg h1]
          rw [if_pos (show c0 + costOf ctx a + costOf ctx b + 1 ≤ k by omega)]
      · simp only [if_neg hB]
        rw [if_neg (show ¬ (c0 + costOf ctx a + costOf ctx b + 1 ≤ k) by omega)]
    · simp only [if_neg hA]
      rw [if_neg (show ¬ (c0 + costOf ctx a + costOf ctx b + 1 ≤ k) by omega)]


/-! ### Case-analysis lemmas for the three-valued result algebra -/

theorem andShortRes_not_unknown (ra : EvalRes) (i : Nat) (ns : List String) :
    andShortRes ra ≠ .unknown i ns := by
  rcases ra with v | ⟨j, ms⟩ | m
  · rcases v with b | z | s
    · rcases b with _ | _ <;> simp [andShortRes]
    · simp [andShortRes]
    · simp [andShortRes]
  · simp [andShortRes]
  · simp [andShortRes]

theorem orShortRes_not_unknown (ra : EvalRes) (i : Nat) (ns : List String) :
    orShortRes ra ≠ .unknown i ns := by
  rcases ra with v | ⟨j, ms⟩ | m
  · rcases v with b | z | s
    · rcases b with _ | _ <;> simp [orShortRes]
    · simp [orShortRes]
    · simp [orShortRes]
  · simp [orShortRes]
  · simp [orShortRes]

theorem andCombine_unknown (ra rb : EvalRes) (i : Nat) (ns : List String)
    (h : andCombine ra rb = .unknown i ns) :
    (∃ v, ra = .known v ∧ rb = .unknown i ns) ∨
    (ra = .unknown i ns ∧ rb = .known (.bool true)) ∨
    (∃ ms1 j ms2, ra = .unknown i ms1 ∧ rb = .unknown j ms2 ∧ ns = mergeNames ms1 ms2) := by
  rcases ra with v | ⟨j1, ms1⟩ | m1 <;> rcases rb with v2 | ⟨j2, ms2⟩ | m2
  · rcases v2 with b2 | z2 | s2
    · rcases b2 with _ | _ <;> simp [andCombine] at h
    · simp [andCombine] at h
    · simp [andCombine] at h
  · simp [andCombine] at h
    exact Or.inl ⟨v, rfl, by rw [h.1, h.2]⟩
  · simp [andCombine] at h
  · rcases v2 with b2 | z2 | s2
    · rcases b2 with _ | _
      · simp [andCombine] at h
      · simp [andCombine] at h
        exact Or.inr (Or.inl ⟨by rw [h.1, h.2], rfl⟩)
    · simp [andCombine] at h
    · simp [andCombine] at h
  · simp [andCombine] at h
    exact Or.inr (Or.inr ⟨ms1, j2, ms2, by rw [h.1], rfl, h.2.symm⟩)
  · simp [andCombine] at h
  · simp [andCombine] at h
  · simp [andCombine] at h
  · simp [andCombine] at h

theorem orCombine_unknown (ra rb : EvalRes) (i : Nat) (ns : List String)
    (h : orCombine ra rb = .unknown i ns) :
    (∃ v, ra = .known v ∧ rb = .unknown i ns) ∨
    (ra = .unknown i ns ∧ rb = .known (.bool false)) ∨
    (∃ ms1 j ms2, ra = .unknown i ms1 ∧ rb = .unknown j ms2 ∧ ns = mergeNames ms1 ms2) := by
  rcases ra with v | ⟨j1, ms1⟩ | m1 <;> rcases rb with v2 | ⟨j2, ms2⟩ | m2
  · rcases v2 with b2 | z2 | s2
    · rcases b2 with _ | _ <;> simp [orCombine] at h
    · simp [orCombine] at h
    · simp [orCombine] at h
  · simp [orCombine] at h
    exact Or.inl ⟨v, rfl, by rw [h.1, h.2]⟩
  · simp [orCombine] at h
  · rcases v2 with b2 | z2 | s2
    · rcases b2 with _ | _
      · simp [orCombine] at h
        exact Or.inr (Or.inl ⟨by rw [h.1, h.2], rfl⟩)
      · simp [orCombine] at h
    · simp [orCombine] at h
    · simp [orCombine] at h
  · simp [orCombine] at h
    exact Or.inr (Or.inr ⟨ms1, j2, ms2, by rw [h.1], rfl, h.2.symm⟩)
  · simp [orCombine] at h
  · simp [orCombine] at h
  · simp [orCombine] at h
  · simp [orCombine] at h

theorem notRes_unknown (ra : EvalRes) (i : Nat) (ns : List String)
    (h : notRes ra = .unknown i ns) : ra = .unknown i ns := by
  rcases ra with v | ⟨j, ms⟩ | m
  · rcases v with b | z | s
    · rcases b with _ | _ <;> simp [notRes] at h
    · simp [notRes] at h
    · simp [notRes] at h
  · simp [notRes] at h
    rw [h.1, h.2]
  · simp [notRes] at h

theorem binRes_unknown (f : CelValue → CelValue → EvalRes)
    (hf : ∀ x y i2 ns2, f x y ≠ .unknown i2 ns2)
    (ra rb : EvalRes) (i : Nat) (ns : List String)
    (h : binRes f ra rb = .unknown i ns) :
    (∃ v, ra = .known v ∧ rb = .unknown i ns) ∨
    (ra = .unknown i ns ∧ ∃ v, rb = .known v) ∨
    (∃ ms1 j ms2, ra = .unknown i ms1 ∧ rb = .unknown j ms2 ∧ ns = mergeNames ms1 ms2) := by
  rcases ra with v | ⟨j1, ms1⟩ | m1 <;> rcases rb with v2 | ⟨j2, ms2⟩ | m2
  · exact absurd h (hf v v2 i ns)
  · simp [binRes] at h
    exact Or.inl ⟨v, rfl, by rw [h.1, h.2]⟩
  · simp [binRes] at h
  · simp [binRes] at h
    exact Or.inr (Or.inl ⟨by rw [h.1, h.2], v2, rfl⟩)
  · simp [binRes] at h
    exact Or.inr (Or.inr ⟨ms1, j2, ms2, by rw [h.1], rfl, h.2.symm⟩)
  · simp [binRes] at h
  · simp [binRes] at h
  · simp [binRes] at h
  · simp [binRes] at h

theorem geOp_not_unknown (x y : CelValue) (i : Nat) (ns : List String) :
    geOp x y ≠ .unknown i ns := by
  rcases x with b | z | s <;> rcases y with b2 | z2 | s2 <;> simp [geOp]

theorem eqOp_not_unknown (x y : CelValue) (i : Nat) (ns : List String) :
    eqOp x y ≠ .unknown i ns := by
  simp [eqOp]

theorem andShortRes_known (ra : EvalRes) (v : CelValue) (h : andShortRes ra = .known v) :
    ra = .known (.bool false) ∧ v = .bool false := by
  rcases ra with w | ⟨j, ms⟩ | m
  · rcases w with b | z | s
    · rcases b with _ | _ <;> simp_all [andShortRes]
    · simp [andShortRes, noSuchOverloadMsg] at h
    · simp [andShortRes, noSuchOverloadMsg] at h
  · simp [andShortRes, noSuchOverloadMsg] at h
  · simp [andShortRes] at h

theorem orShortRes_known (ra : EvalRes) (v : CelValue) (h : orShortRes ra = .known v) :
    ra = .known (.bool true) ∧ v = .bool true := by
  rcases ra with w | ⟨j, ms⟩ | m
  · rcases w with b | z | s
    · rcases b with _ | _ <;> simp_all [orShortRes]
    · simp [orShortRes, noSuchOverloadMsg] at h
    · simp [orShortRes, noSuchOverloadMsg] at h
  · simp [orShortRes, noSuchOverloadMsg] at h
  · simp [orShortRes] at h

theorem andCombine_known (ra rb : EvalRes) (v : CelValue)
    (h : andCombine ra rb = .known v) :
    (∃ v1 bb, ra = .known v1 ∧ rb = .known (.bool bb) ∧ v = .bool bb) ∨
    (∃ j ms, ra = .unknown j ms ∧ rb = .known (.bool false) ∧ v = .bool false) := by
  rcases ra with w | ⟨j1, ms1⟩ | m1 <;> rcases rb with w2 | ⟨j2, ms2⟩ | m2
  · rcases w2 with b2 | z2 | s2
    · simp [andCombine] at h
      exact Or.inl ⟨w, b2, rfl, rfl, h.symm⟩
    · simp [andCombine, noSuchOverloadMsg] at h
    · simp [andCombine, noSuchOverloadMsg] at h
  · simp [andCombine] at h
  · simp [andCombine] at h
  · rcases w2 with b2 | z2 | s2
    · rcases b2 with _ | _
      · simp [andCombine] at h
        exact Or.inr ⟨j1, ms1, rfl, rfl, h.symm⟩
      · simp [andCombine] at h
    · simp [andCombine, noSuchOverloadMsg] at h
    · simp [andCombine, noSuchOverloadMsg] at h
  · simp [andCombine] at h
  · simp [andCombine] at h
  · simp [andCombine] at h
  · simp [andCombine] at h
  · simp [andCombine] at h

theorem orCombine_known (ra rb : EvalRes) (v : CelValue)
    (h : orCombine ra rb = .known v) :
    (∃ v1 bb, ra = .known v1 ∧ rb = .known (.bool bb) ∧ v = .bool bb) ∨
    (∃ j ms, ra = .unknown j ms ∧ rb = .known (.bool true) ∧ v = .bool true) := by
  rcases ra with w | ⟨j1, ms1⟩ | m1 <;> rcases rb with w2 | ⟨j2, ms2⟩ | m2
  · rcases w2 with b2 | z2 | s2
    · simp [orCombine] at h
      exact Or.inl ⟨w, b2, rfl, rfl, h.symm⟩
    · simp [orCombine, noSuchOverloadMsg] at h
    · simp [orCombine, noSuchOverloadMsg] at h
  · simp [orCombine] at h
  · simp [orCombine] at h
  · rcases w2 with b2 | z2 | s2
    · rcases b2 with _ | _
      · simp [orCombine] at h
      · simp [orCombine] at h
        exact Or.inr ⟨j1, ms1, rfl, rfl, h.symm⟩
    · simp [orCombine, noSuchOverloadMsg] at h
    · simp [orCombine, noSuchOverloadMsg] at h
  · simp [orCombine] at h
  · simp [orCombine] at h
  · simp [orCombine] at h
  · simp [orCombine] at h
  · simp [orCombine] at h

theorem notRes_known (ra : EvalRes) (v : CelValue) (h : notRes ra = .known v) :
    ∃ bb, ra = .known (.bool bb) ∧ v = .bool !bb := by
  rcases ra with w | ⟨j, ms⟩ | m
  · rcases w with b | z | s
    · simp [notRes] at h
      exact ⟨b, rfl, h.symm⟩
    · simp [notRes, noSuchOverloadMsg] at h
    · simp [notRes, noSuchOverloadMsg] at h
  · simp [notRes] at h
  · simp [notRes] at h

theorem binRes_known (f : CelValue → CelValue → EvalRes) (ra rb : EvalRes) (v : CelValue)
    (h : binRes f ra rb = .known v) :
    ∃ x y, ra = .known x ∧ rb = .known y ∧ f x y = .known v := by
  rcases ra with w | ⟨j1, ms1⟩ | m1 <;> rcases rb with w2 | ⟨j2, ms2⟩ | m2
  · exact ⟨w, w2, rfl, rfl, h⟩
  · simp [binRes] at h
  · simp [binRes] at h
  · simp [binRes] at h
  · simp [binRes] at h
  · simp [binRes] at h
  · simp [binRes] at h
  · simp [binRes] at h
  · simp [binRes] at h

theorem andShortRes_err (ra : EvalRes) (m : String) (h : andShortRes ra = .err m) :
    ra = .err m ∨ m = noSuchOverloadMsg := by
  rcases ra with w | ⟨j, ms⟩ | m2
  · rcases w with b | z | s
    · rcases b with _ | _ <;> simp_all [andShortRes]
    · simp [andShortRes] at h; exact Or.inr h.symm
    · simp [andShortRes] at h; exact Or.inr h.symm
  · simp [andShortRes] at h; exact Or.inr h.symm
  · simp [andShortRes] at h; exact Or.inl (by rw [h])

theorem orShortRes_err (ra : EvalRes) (m : String) (h : orShortRes ra = .err m) :
    ra = .err m ∨ m = noSuchOverloadMsg := by
  rcases ra with w | ⟨j, ms⟩ | m2
  · rcases w with b | z | s
    · rcases b with _ | _ <;> simp_all [orShortRes]
    · simp [orShortRes] at h; exact Or.inr h.symm
    · simp [orShortRes] at h; exact Or.inr h.symm
  · simp [orShortRes] at h; exact Or.inr h.symm
  · simp [orShortRes] at h; exact Or.inl (by rw [h])

theorem andCombine_err (ra rb : EvalRes) (m : String) (h : andCombine ra rb = .err m) :
    ra = .err m ∨ rb = .err m ∨ m = noSuchOverloadMsg := by
  rcases ra with w | ⟨j1, ms1⟩ | m1 <;> rcases rb with w2 | ⟨j2, ms2⟩ | m2
  · rcases w2 with b2 | z2 | s2
    · simp [andCombine] at h
    · simp [andCombine] at h; exact Or.inr (Or.inr h.symm)
    · simp [andCombine] at h; exact Or.inr (Or.inr h.symm)
  · simp [andCombine] at h
  · simp [andCombine] at h; exact Or.inr (Or.inl (by rw [h]))
  · rcases w2 with b2 | z2 | s2
    · rcases b2 with _ | _ <;> simp [andCombine] at h
    · simp [andCombine] at h; exact Or.inr (Or.inr h.symm)
    · simp [andCombine] at h; exact Or.inr (Or.inr h.symm)
  · simp [andCombine] at h
  · simp [andCombine] at h; exact Or.inr (Or.inl (by rw [h]))
  · simp [andCombine] at h; exact Or.inl (by rw [h])
  · simp [andCombine] at h; exact Or.inl (by rw [h])
  · simp [andCombine] at h; exact Or.inr (Or.inl (by rw [h]))

theorem orCombine_err (ra rb : EvalRes) (m : String) (h : orCombine ra rb = .err m) :
    ra = .err m ∨ rb = .err m ∨ m = noSuchOverloadMsg := by
  rcases ra with w | ⟨j1, ms1⟩ | m1 <;> rcases rb with w2 | ⟨j2, ms2⟩ | m2
  · rcases w2 with b2 | z2 | s2
    · simp [orCombine] at h
    · simp [orCombine] at h; exact Or.inr (Or.inr h.symm)
    · simp [orCombine] at h; exact Or.inr (Or.inr h.symm)
  · simp [orCombine] at h
  · simp [orCombine] at h; exact Or.inr (Or.inl (by rw [h]))
  · rcases w2 with b2 | z2 | s2
    · rcases b2 with _ | _ <;> simp [orCombine] at h
    · simp [orCombine] at h; exact Or.inr (Or.inr h.symm)
    · simp [orCombine] at h; exact Or.inr (Or.inr h.symm)
  · simp [orCombine] at h
  · simp [orCombine] at h; exact Or.inr (Or.inl (by rw [h]))
  · simp [orCombine] at h; exact Or.inl (by rw [h])
  · simp [orCombine] at h; exact Or.inl (by rw [h])
  · simp [orCombine] at h; exact Or.inr (Or.inl (by rw [h]))

theorem notRes_err (ra : EvalRes) (m : String) (h : notRes ra = .err m) :
    ra = .err m ∨ m = noSuchOverloadMsg := by
  rcases ra with w | ⟨j, ms⟩ | m2
  · rcases w with b | z | s
    · simp [notRes] at h
    · simp [notRes] at h; exact Or.inr h.symm
    · simp [notRes] at h; exact Or.inr h.symm
  · simp [notRes] at h
  · simp [notRes] at h; exact Or.inl (by rw [h])

theorem binRes_err (f : CelValue → CelValue → EvalRes) (ra rb : EvalRes) (m : String)
    (h : binRes f ra rb = .err m) :
    ra = .err m ∨ rb = .err m ∨ ∃ x y, f x y = .err m := by
  rcases ra with w | ⟨j1, ms1⟩ | m1 <;> rcases rb with w2 | ⟨j2, ms2⟩ | m2
  · exact Or.inr (Or.inr ⟨w, w2, h⟩)
  · simp [binRes] at h
  · simp [binRes] at h; exact Or.inr (Or.inl (by rw [h]))
  · simp [binRes] at h
  · simp [binRes] at h
  · simp [binRes] at h; exact Or.inr (Or.inl (by rw [h]))
  · simp [binRes] at h; exact Or.inl (by rw [h])
  · simp [binRes] at h; exact Or.inl (by rw [h])
  · simp [binRes] at h; exact Or.inl (by rw [h])

theorem geOp_err (x y : CelValue) (m : String) (h : geOp x y = .err m) :
    m = noSuchOverloadMsg := by
  rcases x with b | z | s <;> rcases y with b2 | z2 | s2 <;> simp [geOp] at h <;>
    exact h.symm

theorem eqOp_not_err (x y : CelValue) (m : String) : eqOp x y ≠ .err m := by
  simp [eqOp]


/-! ### Semantic lemmas about the three-valued evaluator -/

theorem mem_mergeNames (n : String) (xs ys : List String) :
    n ∈ mergeNames xs ys ↔ n ∈ xs ∨ n ∈ ys := by
  simp [mergeNames, List.mem_filter]
  tauto

theorem mergeNames_nodup (xs ys : List String) (hx : xs.Nodup) (hy : ys.Nodup) :
    (mergeNames xs ys).Nodup := by
  refine hx.append (hy.filter _) ?_
  intro n hn hnf
  rw [List.mem_filter] at hnf
  simp at hnf
  exact hnf.2 hn

theorem mergeNames_ne_nil (xs ys : List String) (hx : xs ≠ []) :
    mergeNames xs ys ≠ [] := by
  simp only [mergeNames, ne_eq, List.append_eq_nil]
  rintro ⟨h1, -⟩
  exact hx h1

theorem eval3_no_unknown (ctx : Ctx) (e : Expr) : ∀ (i : Nat) (ns : List String),
    (∀ n ∈ varsOf e, (ctx n).isSome = true) → eval3 ctx e ≠ .unknown i ns := by
  induction e with
  | const v => intro i ns _; simp [eval3]
  | var j n =>
    intro i ns hb
    have hn := hb n (by simp [varsOf])
    simp only [eval3]
    cases hc : ctx n with
    | none => rw [hc] at hn; simp at hn
    | some v => simp [varRes]
  | and a b iha ihb =>
    intro i ns hb hu
    have hba : ∀ n ∈ varsOf a, (ctx n).isSome = true :=
      fun n hn => hb n (by simp only [varsOf, List.mem_append]; exact Or.inl hn)
    have hbb : ∀ n ∈ varsOf b, (ctx n).isSome = true :=
      fun n hn => hb n (by simp only [varsOf, List.mem_append]; exact Or.inr hn)
    simp only [eval3] at hu
    by_cases hs : andShort (eval3 ctx a) = true
    · rw [if_pos hs] at hu
      exact andShortRes_not_unknown _ i ns hu
    · rw [if_neg hs] at hu
      rcases andCombine_unknown _ _ _ _ hu with ⟨v, h1, h2⟩ | ⟨h1, h2⟩ |
        ⟨ms1, j, ms2, h1, h2, h3⟩
      · exact ihb i ns hbb h2
      · exact iha i ns hba h1
      · exact iha i ms1 hba h1
  | or a b iha ihb =>
    intro i ns hb hu
    have hba : ∀ n ∈ varsOf a, (ctx n).isSome = true :=
      fun n hn => hb n (by simp only [varsOf, List.mem_append]; exact Or.inl hn)
    have hbb : ∀ n ∈ varsOf b, (ctx n).isSome = true :=
      fun n hn => hb n (by simp only [varsOf, List.mem_append]; exact Or.inr hn)
    simp only [eval3] at hu
    by_cases hs : orShort (eval3 ctx a) = true
    · rw [if_pos hs] at hu
      exact orShortRes_not_unknown _ i ns hu
    · rw [if_neg hs] at hu
      rcases orCombine_unknown _ _ _ _ hu with ⟨v, h1, h2⟩ | ⟨h1, h2⟩ |
        ⟨ms1, j, ms2, h1, h2, h3⟩
      · exact ihb i ns hbb h2
      · exact iha i ns hba h1
      · exact iha i ms1 hba h1
  | not a iha =>
    intro i ns hb hu
    simp only [eval3] at hu
    exact iha i ns (fun n hn => hb n (by simpa [varsOf] using hn)) (notRes_unknown _ _ _ hu)
  | ge a b iha ihb =>
    intro i ns hb hu
    have hba : ∀ n ∈ varsOf a, (ctx n).isSome = true :=
      fun n hn => hb n (by simp only [varsOf, List.mem_append]; exact Or.inl hn)
    have hbb : ∀ n ∈ varsOf b, (ctx n).isSome = true :=
      fun n hn => hb n (by simp only [varsOf, List.mem_append]; exact Or.inr hn)
    simp only [eval3] at hu
    rcases binRes_unknown _ geOp_not_unknown _ _ _ _ hu with ⟨v, h1, h2⟩ | ⟨h1, -⟩ |
      ⟨ms1, j, ms2, h1, h2, h3⟩
    · exact ihb i ns hbb h2
    · exact iha i ns hba h1
    · exact iha i ms1 hba h1
  | eq a b iha ihb =>
    intro i ns hb hu
    have hba : ∀ n ∈ varsOf a, (ctx n).isSome = true :=
      fun n hn => hb n (by simp only [varsOf, List.mem_append]; exact Or.inl hn)
    have hbb : ∀ n ∈ varsOf b, (ctx n).isSome = true :=
      fun n hn => hb n (by simp only [varsOf, List.mem_append]; exact Or.inr hn)
    simp only [eval3] at hu
    rcases binRes_unknown _ eqOp_not_unknown _ _ _ _ hu with ⟨v, h1, h2⟩ | ⟨h1, -⟩ |
      ⟨ms1, j, ms2, h1, h2, h3⟩
    · exact ihb i ns hbb h2
    · exact iha i ns hba h1
    · exact iha i ms1 hba h1

theorem eval3_err_msg (ctx : Ctx) (e : Expr) : ∀ m : String,
    eval3 ctx e = .err m → m = noSuchOverloadMsg := by
  induction e with
  | const v => intro m h; simp [eval3] at h
  | var j n =>
    intro m h
    simp only [eval3] at h
    cases hc : ctx n <;> rw [hc] at h <;> simp [varRes] at h
  | and a b iha ihb =>
    intro m h
    simp only [eval3] at h
    by_cases hs : andShort (eval3 ctx a) = true
    · rw [if_pos hs] at h
      rcases andShortRes_err _ _ h with h1 | h1
      · exact iha m h1
      · exact h1
    · rw [if_neg hs] at h
      rcases andCombine_err _ _ _ h with h1 | h1 | h1
      · exact iha m h1
      · exact ihb m h1
      · exact h1
  | or a b iha ihb =>
    intro m h
    simp only [eval3] at h
    by_cases hs : orShort (eval3 ctx a) = true
    · rw [if_pos hs] at h
      rcases orShortRes_err _ _ h with h1 | h1
      · exact iha m h1
      · exact h1
    · rw [if_neg hs] at h
      rcases orCombine_err _ _ _ h with h1 | h1 | h1
      · exact iha m h1
      · exact ihb m h1
      · exact h1
  | not a iha =>
    intro m h
    simp only [eval3] at h
    rcases notRes_err _ _ h with h1 | h1
    · exact iha m h1
    · exact h1
  | ge a b iha ihb =>
    intro m h
    simp only [eval3] at h
    rcases binRes_err _ _ _ _ h with h1 | h1 | ⟨x, y, h1⟩
    · exact iha m h1
    · exact ihb m h1
    · exact geOp_err x y m h1
  | eq a b iha ihb =>
    intro m h
    simp only [eval3] at h
    rcases binRes_err _ _ _ _ h with h1 | h1 | ⟨x, y, h1⟩
    · exact iha m h1
    · exact ihb m h1
    · exact absurd h1 (eqOp_not_err x y m)

theorem eval3_unknown_names (ctx : Ctx) (e : Expr) : ∀ (i : Nat) (ns : List String),
    wfExpr e = true → eval3 ctx e = .unknown i ns →
    ns ≠ [] ∧ ns.Nodup ∧ ∀ n ∈ ns, ctx n = none ∧ wfName n = true := by
  induction e with
  | const v => intro i ns _ h; simp [eval3] at h
  | var j n =>
    intro i ns hwf h
    simp only [eval3] at h
    cases hc : ctx n with
    | some v => rw [hc] at h; simp [varRes] at h
    | none =>
      rw [hc] at h
      simp only [varRes, EvalRes.unknown.injEq] at h
      rw [← h.2]
      refine ⟨by simp, List.nodup_singleton n, fun n2 hn2 => ?_⟩
      rw [List.mem_singleton] at hn2
      subst hn2
      exact ⟨hc, by simpa [wfExpr] using hwf⟩
  | and a b iha ihb =>
    intro i ns hwf h
    have hwa : wfExpr a = true := (Bool.and_elim_left (by simpa [wfExpr] using hwf))
    have hwb : wfExpr b = true := (Bool.and_elim_right (by simpa [wfExpr] using hwf))
    simp only [eval3] at h
    by_cases hs : andShort (eval3 ctx a) = true
    · rw [if_pos hs] at h
      exact absurd h (andShortRes_not_unknown _ _ _)
    · rw [if_neg hs] at h
      rcases andCombine_unknown _ _ _ _ h with ⟨v, h1, h2⟩ | ⟨h1, h2⟩ |
        ⟨ms1, j, ms2, h1, h2, h3⟩
      · exact ihb i ns hwb h2
      · exact iha i ns hwa h1
      · obtain ⟨hne1, hnd1, hm1⟩ := iha i ms1 hwa h1
        obtain ⟨hne2, hnd2, hm2⟩ := ihb j ms2 hwb h2
        subst h3
        exact ⟨mergeNames_ne_nil _ _ hne1, mergeNames_nodup _ _ hnd1 hnd2,
          fun n hn => ((mem_mergeNames n _ _).mp hn).elim (hm1 n) (hm2 n)⟩
  | or a b iha ihb =>
    intro i ns hwf h
    have hwa : wfExpr a = true := (Bool.and_elim_left (by simpa [wfExpr] using hwf))
    have hwb : wfExpr b = true := (Bool.and_elim_right (by simpa [wfExpr] using hwf))
    simp only [eval3] at h
    by_cases hs : orShort (eval3 ctx a) = true
    · rw [if_pos hs] at h
      exact absurd h (orShortRes_not_unknown _ _ _)
    · rw [if_neg hs] at h
      rcases orCombine_unknown _ _ _ _ h with ⟨v, h1, h2⟩ | ⟨h1, h2⟩ |
        ⟨ms1, j, ms2, h1, h2, h3⟩
      · exact ihb i ns hwb h2
      · exact iha i ns hwa h1
      · obtain ⟨hne1, hnd1, hm1⟩ := iha i ms1 hwa h1
        obtain ⟨hne2, hnd2, hm2⟩ := ihb j ms2 hwb h2
        subst h3
        exact ⟨mergeNames_ne_nil _ _ hne1, mergeNames_nodup _ _ hnd1 hnd2,
          fun n hn => ((mem_mergeNames n _ _).mp hn).elim (hm1 n) (hm2 n)⟩
  | not a iha =>
    intro i ns hwf h
    simp only [eval3] at h
    exact iha i ns (by simpa [wfExpr] using hwf) (notRes_unknown _ _ _ h)
  | ge a b iha ihb =>
    intro i ns hwf h
    have hwa : wfExpr a = true := (Bool.and_elim_left (by simpa [wfExpr] using hwf))
    have hwb : wfExpr b = true := (Bool.and_elim_right (by simpa [wfExpr] using hwf))
    simp only [eval3] at h
    rcases binRes_unknown _ geOp_not_unknown _ _ _ _ h with ⟨v, h1, h2⟩ | ⟨h1, -⟩ |
      ⟨ms1, j, ms2, h1, h2, h3⟩
    · exact ihb i ns hwb h2
    · exact iha i ns hwa h1
    · obtain ⟨hne1, hnd1, hm1⟩ := iha i ms1 hwa h1
      obtain ⟨hne2, hnd2, hm2⟩ := ihb j ms2 hwb h2
      subst h3
      exact ⟨mergeNames_ne_nil _ _ hne1, mergeNames_nodup _ _ hnd1 hnd2,
        fun n hn => ((mem_mergeNames n _ _).mp hn).elim (hm1 n) (hm2 n)⟩
  | eq a b iha ihb =>
    intro i ns hwf h
    have hwa : wfExpr a = true := (Bool.and_elim_left (by simpa [wfExpr] using hwf))
    have hwb : wfExpr b = true := (Bool.and_elim_right (by simpa [wfExpr] using hwf))
    simp only [eval3] at h
    rcases binRes_unknown _ eqOp_not_unknown _ _ _ _ h with ⟨v, h1, h2⟩ | ⟨h1, -⟩ |
      ⟨ms1, j, ms2, h1, h2, h3⟩
    · exact ihb i ns hwb h2
    · exact iha i ns hwa h1
    · obtain ⟨hne1, hnd1, hm1⟩ := iha i ms1 hwa h1
      obtain ⟨hne2, hnd2, hm2⟩ := ihb j ms2 hwb h2
      subst h3
      exact ⟨mergeNames_ne_nil _ _ hne1, mergeNames_nodup _ _ hnd1 hnd2,
        fun n hn => ((mem_mergeNames n _ _).mp hn).elim (hm1 n) (hm2 n)⟩


/-! ### Monotonicity and pruning soundness -/

theorem andCombine_err_right (ra : EvalRes) (m : String) :
    andCombine ra (.err m) = .err m := by
  rcases ra with v | ⟨j, ms⟩ | m2 <;> rfl

theorem orCombine_err_right (ra : EvalRes) (m : String) :
    orCombine ra (.err m) = .err m := by
  rcases ra with v | ⟨j, ms⟩ | m2 <;> rfl

theorem binRes_err_right (f : CelValue → CelValue → EvalRes) (ra : EvalRes) (m : String) :
    ∃ m2, binRes f ra (.err m) = .err m2 := by
  rcases ra with v | ⟨j, ms⟩ | m2
  · exact ⟨m, rfl⟩
  · exact ⟨m, rfl⟩
  · exact ⟨m2, rfl⟩

theorem andShort_false (r : EvalRes) (h : andShort r = false) :
    r = .known (.bool true) ∨ ∃ j ms, r = .unknown j ms := by
  rcases r with v | ⟨j, ms⟩ | m
  · rcases v with b | z | s
    · rcases b with _ | _
      · simp [andShort] at h
      · exact Or.inl rfl
    · simp [andShort] at h
    · simp [andShort] at h
  · exact Or.inr ⟨j, ms, rfl⟩
  · simp [andShort] at h

theorem orShort_false (r : EvalRes) (h : orShort r = false) :
    r = .known (.bool false) ∨ ∃ j ms, r = .unknown j ms := by
  rcases r with v | ⟨j, ms⟩ | m
  · rcases v with b | z | s
    · rcases b with _ | _
      · exact Or.inl rfl
      · simp [orShort] at h
    · simp [orShort] at h
    · simp [orShort] at h
  · exact Or.inr ⟨j, ms, rfl⟩
  · simp [orShort] at h

/-- Evaluation is monotone in the context on decided results, up to hard
errors: enlarging the context never changes a decided value into a different
decided value or an unknown — at worst it surfaces a type error in a subtree
that short-circuiting had silenced. -/
theorem eval3_mono_known (ctx ctx2 : Ctx) (hle : ctxLE ctx ctx2) (e : Expr) :
    ∀ v : CelValue, eval3 ctx e = .known v →
    eval3 ctx2 e = .known v ∨ ∃ m, eval3 ctx2 e = .err m := by
  induction e with
  | const w =>
    intro v h
    simp only [eval3] at h ⊢
    exact Or.inl h
  | var j n =>
    intro v h
    simp only [eval3] at h ⊢
    cases hc : ctx n with
    | none => rw [hc] at h; simp [varRes] at h
    | some w =>
      rw [hc] at h
      simp only [varRes, EvalRes.known.injEq] at h
      rw [hle n w hc]
      simp [varRes, h]
  | and a b iha ihb =>
    intro v h
    simp only [eval3] at h ⊢
    by_cases hs : andShort (eval3 ctx a) = true
    · rw [if_pos hs] at h
      obtain ⟨ha, hv⟩ := andShortRes_known _ _ h
      subst hv
      rcases iha _ ha with ha2 | ⟨m, ha2⟩
      · rw [ha2]
        exact Or.inl (by simp [andShort, andShortRes])
      · rw [ha2]
        exact Or.inr ⟨m, by simp [andShort, andShortRes]⟩
    · rw [if_neg hs] at h
      rcases andCombine_known _ _ _ h with ⟨v1, bb, h1, h2, hv⟩ | ⟨j, ms, h1, h2, hv⟩
      · -- left operand decided; since it did not short-circuit it is `true`
        rcases andShort_false _ (by simpa using hs) with hT | ⟨j, ms, hU⟩
        · rw [h1] at hT
          rcases iha _ h1 with ha2 | ⟨m, ha2⟩
          · rcases ihb _ h2 with hb2 | ⟨m, hb2⟩
            · rw [ha2, hb2, hT]
              subst hv
              exact Or.inl (by simp [andShort, andCombine])
            · rw [ha2, hb2, hT]
              exact Or.inr ⟨m, by simp [andShort, andCombine]⟩
          · rw [ha2]
            exact Or.inr ⟨m, by simp [andShort, andShortRes]⟩
        · rw [h1] at hU; cases hU
      · -- left operand unknown under the smaller context, right decides `false`
        subst hv
        rcases ihb _ h2 with hb2 | ⟨m, hb2⟩
        · rcases ha2 : eval3 ctx2 a with w2 | ⟨j2, ms2⟩ | m2
          · rcases w2 with b2 | z2 | s2
            · rcases b2 with _ | _
              · exact Or.inl (by simp [andShort, andShortRes])
              · rw [hb2]
                exact Or.inl (by simp [andShort, andCombine])
            · exact Or.inr ⟨noSuchOverloadMsg, by simp [andShort, andShortRes]⟩
            · exact Or.inr ⟨noSuchOverloadMsg, by simp [andShort, andShortRes]⟩
          · rw [hb2]
            exact Or.inl (by simp [andShort, andCombine])
          · exact Or.inr ⟨m2, by simp [andShort, andShortRes]⟩
        · rcases ha2 : eval3 ctx2 a with w2 | ⟨j2, ms2⟩ | m2
          · rcases w2 with b2 | z2 | s2
            · rcases b2 with _ | _
              · exact Or.inl (by simp [andShort, andShortRes])
              · rw [hb2]
                exact Or.inr ⟨m, by simp [andShort, andCombine, andCombine_err_right]⟩
            · exact Or.inr ⟨noSuchOverloadMsg, by simp [andShort, andShortRes]⟩
            · exact Or.inr ⟨noSuchOverloadMsg, by simp [andShort, andShortRes]⟩
          · rw [hb2]
            exact Or.inr ⟨m, by simp [andShort, andCombine_err_right]⟩
          · exact Or.inr ⟨m2, by simp [andShort, andShortRes]⟩
  | or a b iha ihb =>
    intro v h
    simp only [eval3] at h ⊢
    by_cases hs : orShort (eval3 ctx a) = true
    · rw [if_pos hs] at h
      obtain ⟨ha, hv⟩ := orShortRes_known _ _ h
      subst hv
      rcases iha _ ha with ha2 | ⟨m, ha2⟩
      · rw [ha2]
        exact Or.inl (by simp [orShort, orShortRes])
      · rw [ha2]
        exact Or.inr ⟨m, by simp [orShort, orShortRes]⟩
    · rw [if_neg hs] at h
      rcases orCombine_known _ _ _ h with ⟨v1, bb, h1, h2, hv⟩ | ⟨j, ms, h1, h2, hv⟩
      · rcases orShort_false _ (by simpa using hs) with hT | ⟨j, ms, hU⟩
        · rw [h1] at hT
          rcases iha _ h1 with ha2 | ⟨m, ha2⟩
          · rcases ihb _ h2 with hb2 | ⟨m, hb2⟩
            · rw [ha2, hb2, hT]
              subst hv
              exact Or.inl (by simp [orShort, orCombine])
            · rw [ha2, hb2, hT]
              exact Or.inr ⟨m, by simp [orShort, orCombine]⟩
          · rw [ha2]
            exact Or.inr ⟨m, by simp [orShort, orShortRes]⟩
        · rw [h1] at hU; cases hU
      · subst hv
        rcases ihb _ h2 with hb2 | ⟨m, hb2⟩
        · rcases ha2 : eval3 ctx2 a with w2 | ⟨j2, ms2⟩ | m2
          · rcases w2 with b2 | z2 | s2
            · rcases b2 with _ | _
              · rw [hb2]
                exact Or.inl (by simp [orShort, orCombine])
              · exact Or.inl (by simp [orShort, orShortRes])
            · exact Or.inr ⟨noSuchOverloadMsg, by simp [orShort, orShortRes]⟩
            · exact Or.inr ⟨noSuchOverloadMsg, by simp [orShort, orShortRes]⟩
          · rw [hb2]
            exact Or.inl (by simp [orShort, orCombine])
          · exact Or.inr ⟨m2, by simp [orShort, orShortRes]⟩
        · rcases ha2 : eval3 ctx2 a with w2 | ⟨j2, ms2⟩ | m2
          · rcases w2 with b2 | z2 | s2
            · rcases b2 with _ | _
              · rw [hb2]
                exact Or.inr ⟨m, by simp [orShort, orCombine_err_right]⟩
              · exact Or.inl (by simp [orShort, orShortRes])
            · exact Or.inr ⟨noSuchOverloadMsg, by simp [orShort, orShortRes]⟩
            · exact Or.inr ⟨noSuchOverloadMsg, by simp [orShort, orShortRes]⟩
          · rw [hb2]
            exact Or.inr ⟨m, by simp [orShort, orCombine_err_right]⟩
          · exact Or.inr ⟨m2, by simp [orShort, orShortRes]⟩
  | not a iha =>
    intro v h
    simp only [eval3] at h ⊢
    obtain ⟨bb, ha, hv⟩ := notRes_known _ _ h
    subst hv
    rcases iha _ ha with ha2 | ⟨m, ha2⟩
    · rw [ha2]
      exact Or.inl (by simp [notRes])
    · rw [ha2]
      exact Or.inr ⟨m, by simp [notRes]⟩
  | ge a b iha ihb =>
    intro v h
    simp only [eval3] at h ⊢
    obtain ⟨x, y, h1, h2, hf⟩ := binRes_known _ _ _ _ h
    rcases iha _ h1 with ha2 | ⟨m, ha2⟩
    · rcases ihb _ h2 with hb2 | ⟨m, hb2⟩
      · rw [ha2, hb2]
        exact Or.inl (by simpa [binRes] using hf)
      · rw [hb2]
        obtain ⟨m2, hm2⟩ := binRes_err_right geOp (eval3 ctx2 a) m
        exact Or.inr ⟨m2, hm2⟩
    · rw [ha2]
      exact Or.inr ⟨m, by simp [binRes]⟩
  | eq a b iha ihb =>
    intro v h
    simp only [eval3] at h ⊢
    obtain ⟨x, y, h1, h2, hf⟩ := binRes_known _ _ _ _ h
    rcases iha _ h1 with ha2 | ⟨m, ha2⟩
    · rcases ihb _ h2 with hb2 | ⟨m, hb2⟩
      · rw [ha2, hb2]
        exact Or.inl (by simpa [binRes] using hf)
      · rw [hb2]
        obtain ⟨m2, hm2⟩ := binRes_err_right eqOp (eval3 ctx2 a) m
        exact Or.inr ⟨m2, hm2⟩
    · rw [ha2]
      exact Or.inr ⟨m, by simp [binRes]⟩

/-- Pruning is sound: under any context extending the state the residual was
pruned against, the residual evaluates exactly like the original expression,
provided the original does not evaluate to a hard error there. -/
theorem prune_correct (ctx ctx2 : Ctx) (hle : ctxLE ctx ctx2) (e : Expr)
    (hne : ∀ m, eval3 ctx2 e ≠ .err m) :
    eval3 ctx2 (prune ctx e) = eval3 ctx2 e := by
  induction e with
  | const v => simp [prune]
  | var j n =>
    rcases hk : eval3 ctx (.var j n) with w | ⟨j2, ms⟩ | m
    · simp only [prune, hk]
      rcases eval3_mono_known ctx ctx2 hle _ _ hk with h2 | ⟨m, h2⟩
      · rw [h2]; simp [eval3]
      · exact absurd h2 (hne m)
    · simp [prune, hk]
    · simp [prune, hk]
  | and a b iha ihb =>
    have hna : ∀ m, eval3 ctx2 a ≠ .err m := by
      intro m hm
      exact hne m (by simp [eval3, hm, andShort, andShortRes])
    have hstruct : eval3 ctx2 (.and (prune ctx a) (prune ctx b)) = eval3 ctx2 (.and a b) := by
      have ha := iha hna
      simp only [eval3, ha]
      by_cases hs2 : andShort (eval3 ctx2 a) = true
      · rw [if_pos hs2, if_pos hs2]
      · have hnb : ∀ m, eval3 ctx2 b ≠ .err m := by
          intro m hm
          apply hne m
          simp only [eval3]
          rw [if_neg hs2, hm, andCombine_err_right]
        rw [if_neg hs2, if_neg hs2, ihb hnb]
    rcases hk : eval3 ctx (.and a b) with w | ⟨j2, ms⟩ | m
    · simp only [prune, hk]
      rcases eval3_mono_known ctx ctx2 hle _ _ hk with h2 | ⟨m, h2⟩
      · rw [h2]; simp [eval3]
      · exact absurd h2 (hne m)
    · simp only [prune, hk]
      exact hstruct
    · simp only [prune, hk]
      exact hstruct
  | or a b iha ihb =>
    have hna : ∀ m, eval3 ctx2 a ≠ .err m := by
      intro m hm
      exact hne m (by simp [eval3, hm, orShort, orShortRes])
    have hstruct : eval3 ctx2 (.or (prune ctx a) (prune ctx b)) = eval3 ctx2 (.or a b) := by
      have ha := iha hna
      simp only [eval3, ha]
      by_cases hs2 : orShort (eval3 ctx2 a) = true
      · rw [if_pos hs2, if_pos hs2]
      · have hnb : ∀ m, eval3 ctx2 b ≠ .err m := by
          intro m hm
          apply hne m
          simp only [eval3]
          rw [if_neg hs2, hm, orCombine_err_right]
        rw [if_neg hs2, if_neg hs2, ihb hnb]
    rcases hk : eval3 ctx (.or a b) with w | ⟨j2, ms⟩ | m
    · simp only [prune, hk]
      rcases eval3_mono_known ctx ctx2 hle _ _ hk with h2 | ⟨m, h2⟩
      · rw [h2]; simp [eval3]
      · exact absurd h2 (hne m)
    · simp only [prune, hk]
      exact hstruct
    · simp only [prune, hk]
      exact hstruct
  | not a iha =>
    have hna : ∀ m, eval3 ctx2 a ≠ .err m := by
      intro m hm
      exact hne m (by simp [eval3, hm, notRes])
    have hstruct : eval3 ctx2 (.not (prune ctx a)) = eval3 ctx2 (.not a) := by
      simp only [eval3, iha hna]
    rcases hk : eval3 ctx (.not a) with w | ⟨j2, ms⟩ | m
    · simp only [prune, hk]
      rcases eval3_mono_known ctx ctx2 hle _ _ hk with h2 | ⟨m, h2⟩
      · rw [h2]; simp [eval3]
      · exact absurd h2 (hne m)
    · simp only [prune, hk]
      exact hstruct
    · simp only [prune, hk]
      exact hstruct
  | ge a b iha ihb =>
    have hna : ∀ m, eval3 ctx2 a ≠ .err m := by
      intro m hm
      exact hne m (by simp [eval3, hm, binRes])
    have hnb : ∀ m, eval3 ctx2 b ≠ .err m := by
      intro m hm
      obtain ⟨m2, hm2⟩ := binRes_err_right geOp (eval3 ctx2 a) m
      apply hne m2
      simp only [eval3]
      rw [hm, hm2]
    have hstruct : eval3 ctx2 (.ge (prune ctx a) (prune ctx b)) = eval3 ctx2 (.ge a b) := by
      simp only [eval3, iha hna, ihb hnb]
    rcases hk : eval3 ctx (.ge a b) with w | ⟨j2, ms⟩ | m
    · simp only [prune, hk]
      rcases eval3_mono_known ctx ctx2 hle _ _ hk with h2 | ⟨m, h2⟩
      · rw [h2]; simp [eval3]
      · exact absurd h2 (hne m)
    · simp only [prune, hk]
      exact hstruct
    · simp only [prune, hk]
      exact hstruct
  | eq a b iha ihb =>
    have hna : ∀ m, eval3 ctx2 a ≠ .err m := by
      intro m hm
      exact hne m (by simp [eval3, hm, binRes])
    have hnb : ∀ m, eval3 ctx2 b ≠ .err m := by
      intro m hm
      obtain ⟨m2, hm2⟩ := binRes_err_right eqOp (eval3 ctx2 a) m
      apply hne m2
      simp only [eval3]
      rw [hm, hm2]
    have hstruct : eval3 ctx2 (.eq (prune ctx a) (prune ctx b)) = eval3 ctx2 (.eq a b) := by
      simp only [eval3, iha hna, ihb hnb]
    rcases hk : eval3 ctx (.eq a b) with w | ⟨j2, ms⟩ | m
    · simp only [prune, hk]
      rcases eval3_mono_known ctx ctx2 hle _ _ hk with h2 | ⟨m, h2⟩
      · rw [h2]; simp [eval3]
      · exact absurd h2 (hne m)
    · simp only [prune, hk]
      exact hstruct
    · simp only [prune, hk]
      exact hstruct


/-! ### Wrapper-level characterization lemmas -/

theorem goContains_overload : goContains noSuchOverloadMsg "no such attribute" = false := by
  decide

theorem evaluateCaveat_known (cav : CompiledCaveat) (ctx : Ctx) (v : CelValue)
    (h : eval3 ctx cav.ast = .known v) :
    EvaluateCaveat cav ctx = .ok ⟨some (.concrete v), ctx, cav, ctx, [], false⟩ := by
  unfold EvaluateCaveat EvaluateCaveatWithConfig progEval
  simp only []
  rw [evalE_none ctx cav.ast 0, h]
  rfl

theorem evaluateCaveat_err (cav : CompiledCaveat) (ctx : Ctx) (m : String)
    (h : eval3 ctx cav.ast = .err m) :
    EvaluateCaveat cav ctx = .error m := by
  have hm := eval3_err_msg ctx cav.ast m h
  unfold EvaluateCaveat EvaluateCaveatWithConfig progEval
  simp only []
  rw [evalE_none ctx cav.ast 0, h]
  show handleEvalResult cav ctx (some (.errVal m)) ctx (some m) = .error m
  unfold handleEvalResult
  rw [hm]
  simp only []
  rw [goContains_overload]
  rfl

theorem evaluateCaveat_unknown_wf (cav : CompiledCaveat) (ctx : Ctx) (i : Nat)
    (ns : List String) (hwf : wfExpr cav.ast = true) (h : eval3 ctx cav.ast = .unknown i ns) :
    EvaluateCaveat cav ctx = .ok ⟨some (.unknownVal i ns), ctx, cav, ctx, ns, true⟩ := by
  obtain ⟨hne, hnd, hmem⟩ := eval3_unknown_names ctx cav.ast i ns hwf h
  have hwfn : ∀ n ∈ ns, wfName n = true := fun n hn => (hmem n hn).2
  unfold EvaluateCaveat EvaluateCaveatWithConfig progEval
  simp only []
  rw [evalE_none ctx cav.ast 0, h]
  show handleEvalResult cav ctx (some (.unknownVal i ns)) ctx
    (some (renderNoSuchAttr i ns)) = _
  unfold handleEvalResult
  simp only []
  rw [goContains_render]
  simp only [Option.isSome_some, Bool.true_and, if_true]
  rw [matchRender i ns hne hwfn]
  simp only []
  rw [goSplitSpace_joinChars ns hne hwfn]

theorem evaluateCaveat_unknown_general (cav : CompiledCaveat) (ctx : Ctx) (i : Nat)
    (ns : List String) (h : eval3 ctx cav.ast = .unknown i ns) :
    EvaluateCaveat cav ctx = handleEvalResult cav ctx (some (.unknownVal i ns)) ctx
      (some (renderNoSuchAttr i ns)) := by
  unfold EvaluateCaveat EvaluateCaveatWithConfig progEval
  simp only []
  rw [evalE_none ctx cav.ast 0, h]

/-- Inversion: an `ok` result of unbounded evaluation is partial exactly when
the root evaluated to an unknown, and decided when it evaluated to a value. -/
theorem evaluateCaveat_ok_inv (cav : CompiledCaveat) (ctx : Ctx) (r : CaveatResult)
    (h : EvaluateCaveat cav ctx = .ok r) :
    (∃ v, eval3 ctx cav.ast = .known v ∧ r = ⟨some (.concrete v), ctx, cav, ctx, [], false⟩) ∨
    (∃ i ns, eval3 ctx cav.ast = .unknown i ns ∧ r.isPartialFlag = true ∧
      r.val = some (.unknownVal i ns) ∧ r.details = ctx ∧ r.parentCaveat = cav) := by
  rcases hk : eval3 ctx cav.ast with v | ⟨i, ns⟩ | m
  · rw [evaluateCaveat_known cav ctx v hk] at h
    exact Or.inl ⟨v, rfl, (Except.ok.injEq _ _ ▸ h).symm⟩
  · rw [evaluateCaveat_unknown_general cav ctx i ns hk] at h
    unfold handleEvalResult at h
    simp only [] at h
    rw [goContains_render] at h
    simp only [Option.isSome_some, Bool.true_and, if_true] at h
    rcases hm : noSuchAttributeMatch (renderNoSuchAttr i ns) with - | found
    · rw [hm] at h
      simp only [Except.ok.injEq] at h
      exact Or.inr ⟨i, ns, rfl, by rw [← h], by rw [← h], by rw [← h], by rw [← h]⟩
    · rw [hm] at h
      simp only [Except.ok.injEq] at h
      exact Or.inr ⟨i, ns, rfl, by rw [← h], by rw [← h], by rw [← h], by rw [← h]⟩
  · rw [evaluateCaveat_err cav ctx m hk] at h
    cases h


/-! ### Concrete fixtures used by the claim theorems and witnesses -/

/-- Compiled form of the spec's running example `age >= 18 && country == "US"`
with environment `{age: int, country: string}`. -/
def exCaveat : CompiledCaveat :=
  ⟨[("age", .tInt), ("country", .tStr)],
   .and (.ge (.var 1 "age") (.const (.int 18))) (.eq (.var 2 "country") (.const (.str "US"))),
   "test"⟩

/-- Context `{age: 20}`. -/
def ctxAge20 : Ctx := fun n => if n = "age" then some (.int 20) else none

/-- Context `{age: 15}`. -/
def ctxAge15 : Ctx := fun n => if n = "age" then some (.int 15) else none

/-- Context `{age: 20, country: "US"}`. -/
def ctxFull : Ctx := fun n =>
  if n = "age" then some (.int 20)
  else if n = "country" then some (.str "US") else none

/-- Context `{country: "US"}`. -/
def ctxCountry : Ctx := fun n => if n = "country" then some (.str "US") else none

/-- Empty context. -/
def ctxEmpty : Ctx := fun _ => none

/-- The partial result of evaluating the example against `{age: 20}`. -/
def exPartialResult : CaveatResult :=
  ⟨some (.unknownVal 2 ["country"]), ctxAge20, exCaveat, ctxAge20, ["country"], true⟩

/-- A decided result carrying the boolean `true`. -/
def exDecidedResult : CaveatResult :=
  ⟨some (.concrete (.bool true)), ctxFull, exCaveat, ctxFull, [], false⟩

/-- A decided result carrying a non-boolean value. -/
def exIntResult : CaveatResult :=
  ⟨some (.concrete (.int 3)), ctxFull, exCaveat, ctxFull, [], false⟩

/-! ### Claim theorems -/

/-- C8: `Value()` returns the decided boolean when the result is Decided (with
a boolean value), and returns `false` — without panicking — whenever the
result is Partial. -/
theorem value_spec (cr : CaveatResult) (b : Bool) :
    (cr.IsPartial = true → cr.Value = some false) ∧
    (cr.IsPartial = false → cr.val = some (.concrete (.bool b)) → cr.Value = some b) := by
  constructor
  · intro hp
    unfold CaveatResult.Value
    rw [CaveatResult.IsPartial] at hp
    rw [if_pos hp]
  · intro hp hv
    unfold CaveatResult.Value
    rw [CaveatResult.IsPartial] at hp
    rw [if_neg (by rw [hp]; exact Bool.false_ne_true), hv]

/-- Witness for C8 at a concrete partial result and a concrete decided
result. -/
theorem value_spec_witness :
    exPartialResult.Value = some false ∧ exDecidedResult.Value = some true :=
  ⟨(value_spec exPartialResult true).1 rfl,
   (value_spec exDecidedResult true).2 rfl rfl⟩

/-- C10: `Value()` on a Decided result performs an unchecked boolean type
assertion: it panics (modelled as `none`) whenever the underlying value is not
a boolean, and is total exactly under the precondition that every non-partial
result carries a boolean value. -/
theorem value_panic_spec (cr : CaveatResult) :
    (cr.IsPartial = false → (∀ b, cr.val ≠ some (.concrete (.bool b))) →
      cr.Value = none) ∧
    ((cr.IsPartial = true ∨ ∃ b, cr.val = some (.concrete (.bool b))) →
      (cr.Value).isSome = true) := by
  constructor
  · intro hp hv
    unfold CaveatResult.Value
    rw [CaveatResult.IsPartial] at hp
    rw [if_neg (by rw [hp]; exact Bool.false_ne_true)]
    rcases hval : cr.val with - | rv
    · rfl
    · rcases rv with v | ⟨i, ns⟩ | m
      · rcases v with b2 | z | s
        · exact absurd hval (hv b2)
        · rfl
        · rfl
      · rfl
      · rfl
  · rintro (hp | ⟨b, hv⟩)
    · unfold CaveatResult.Value
      rw [CaveatResult.IsPartial] at hp
      rw [if_pos hp]
      rfl
    · unfold CaveatResult.Value
      by_cases hp : cr.isPartialFlag = true
      · rw [if_pos hp]; rfl
      · rw [if_neg hp, hv]; rfl

/-- Witness for C10: a decided result carrying an integer value panics. -/
theorem value_panic_spec_witness : exIntResult.Value = none :=
  (value_panic_spec exIntResult).1 rfl (by intro b h; cases h)

/-- C7: `PartialValue` and `MissingVarNames` on a Decided result return the
`NotPartial` error (`"result is fully evaluated"`) instead of crashing, and
`MissingVarNames` on a Partial result returns the extracted list without
error. -/
theorem result_accessor_errors (cr : CaveatResult) :
    (cr.IsPartial = false →
      cr.PartialValue = .error "result is fully evaluated" ∧
      cr.MissingVarNames = .error "result is fully evaluated") ∧
    (cr.IsPartial = true → cr.MissingVarNames = .ok cr.missingVarNames) := by
  rw [CaveatResult.IsPartial]
  constructor
  · intro hp
    unfold CaveatResult.PartialValue CaveatResult.MissingVarNames
    rw [hp]
    exact ⟨rfl, rfl⟩
  · intro hp
    unfold CaveatResult.MissingVarNames
    rw [hp]
    rfl

/-- Witness for C7 at a concrete decided result and a concrete partial
result. -/
theorem result_accessor_errors_witness :
    exDecidedResult.PartialValue = .error "result is fully evaluated" ∧
    exPartialResult.MissingVarNames = .ok ["country"] :=
  ⟨((result_accessor_errors exDecidedResult).1 rfl).1,
   (result_accessor_errors exPartialResult).2 rfl⟩


/-- C2 counterexample: on the running example with context `{age: 20}`, the
residual returned by `PartialValue` keeps the parent's name but carries the
parent's full two-parameter environment, not the environment restricted to the
parameters still relevant to the residual (`country` alone), refuting the
claim as stated. -/
theorem partial_value_env_counterexample :
    ∃ r resid, EvaluateCaveat exCaveat ctxAge20 = .ok r ∧ r.IsPartial = true ∧
      r.PartialValue = .ok resid ∧ resid.name = exCaveat.name ∧
      varsOf resid.ast = ["country"] ∧
      resid.celEnv ≠ restrictEnv exCaveat.celEnv (varsOf resid.ast) ∧
      resid.celEnv = exCaveat.celEnv := by
  refine ⟨exPartialResult, _, ?_, rfl, rfl, rfl, ?_, ?_, rfl⟩
  · exact evaluateCaveat_unknown_wf exCaveat ctxAge20 2 ["country"] (by decide) rfl
  · rfl
  · decide

/-- C2 (amended): for every Partial result, the residual `CompiledExpression`
returned by `PartialValue()` has the same name as the parent expression and
the parent's full declared-parameter environment (the environment is passed
through unchanged, not restricted to the still-relevant parameters); its AST
is the parent's AST pruned against the recorded evaluation state. -/
theorem partial_value_keeps_parent_env (cr : CaveatResult) (resid : CompiledCaveat)
    (hp : cr.IsPartial = true) (h : cr.PartialValue = .ok resid) :
    resid.name = cr.parentCaveat.name ∧ resid.celEnv = cr.parentCaveat.celEnv ∧
    resid.ast = prune cr.details cr.parentCaveat.ast := by
  rw [CaveatResult.IsPartial] at hp
  unfold CaveatResult.PartialValue at h
  rw [hp] at h
  simp only [Bool.not_true, Bool.false_eq_true, if_false, Except.ok.injEq] at h
  rw [← h]
  exact ⟨rfl, rfl, rfl⟩

/-- Witness for the amended C2 at the concrete partial result of the running
example. -/
theorem partial_value_keeps_parent_env_witness :
    ∃ resid, exPartialResult.PartialValue = .ok resid ∧
      resid.name = exPartialResult.parentCaveat.name ∧
      resid.celEnv = exPartialResult.parentCaveat.celEnv ∧
      resid.ast = prune exPartialResult.details exPartialResult.parentCaveat.ast :=
  ⟨_, rfl, partial_value_keeps_parent_env exPartialResult _ rfl rfl⟩

/-- C5: three-valued short-circuit correctness at the API surface: with any
context leaving `v` unbound, `AND(e1, v)` evaluates to Decided `false` when
`e1` evaluates to `false`, and `OR(e1, v)` evaluates to Decided `true` when
`e1` evaluates to `true` — never Partial, never an error. -/
theorem short_circuit_spec :
    (∀ (env : List (String × CelType)) (nm : String) (e1 : Expr) (i : Nat)
      (v : String) (ctx : Ctx), ctx v = none →
      eval3 ctx e1 = .known (.bool false) →
      ∃ r, EvaluateCaveat ⟨env, .and e1 (.var i v), nm⟩ ctx = .ok r ∧
        r.IsPartial = false ∧ r.Value = some false) ∧
    (∀ (env : List (String × CelType)) (nm : String) (e1 : Expr) (i : Nat)
      (v : String) (ctx : Ctx), ctx v = none →
      eval3 ctx e1 = .known (.bool true) →
      ∃ r, EvaluateCaveat ⟨env, .or e1 (.var i v), nm⟩ ctx = .ok r ∧
        r.IsPartial = false ∧ r.Value = some true) := by
  constructor
  · intro env nm e1 i v ctx hv h1
    have hroot : eval3 ctx (.and e1 (.var i v)) = .known (.bool false) := by
      simp [eval3, h1, andShort, andShortRes]
    exact ⟨_, evaluateCaveat_known ⟨env, .and e1 (.var i v), nm⟩ ctx _ hroot, rfl, rfl⟩
  · intro env nm e1 i v ctx hv h1
    have hroot : eval3 ctx (.or e1 (.var i v)) = .known (.bool true) := by
      simp [eval3, h1, orShort, orShortRes]
    exact ⟨_, evaluateCaveat_known ⟨env, .or e1 (.var i v), nm⟩ ctx _ hroot, rfl, rfl⟩

/-- Witness for C5: `age >= 18 AND country == "US"`-style shapes at concrete
inputs: `(age >= 18) && country`-with-`age = 15` decides `false`, and
`(age >= 18) || country`-with-`age = 20` decides `true`, `country` unbound. -/
theorem short_circuit_spec_witness :
    (∃ r, EvaluateCaveat ⟨[("age", .tInt)], .and (.ge (.var 1 "age") (.const (.int 18)))
        (.var 2 "country"), "w"⟩ ctxAge15 = .ok r ∧
      r.IsPartial = false ∧ r.Value = some false) ∧
    (∃ r, EvaluateCaveat ⟨[("age", .tInt)], .or (.ge (.var 1 "age") (.const (.int 18)))
        (.var 2 "country"), "w"⟩ ctxAge20 = .ok r ∧
      r.IsPartial = false ∧ r.Value = some true) :=
  ⟨short_circuit_spec.1 [("age", .tInt)] "w" (.ge (.var 1 "age") (.const (.int 18)))
      2 "country" ctxAge15 rfl rfl,
   short_circuit_spec.2 [("age", .tInt)] "w" (.ge (.var 1 "age") (.const (.int 18)))
      2 "country" ctxAge20 rfl rfl⟩

/-- C6: for every caveat whose AST only mentions declared parameters and every
context binding all declared parameters with type-compatible values,
evaluation never returns a Partial result. -/
theorem fully_bound_not_partial (cav : CompiledCaveat) (ctx : Ctx) (r : CaveatResult)
    (hbind : ∀ p ∈ cav.celEnv, ∃ v, ctx p.1 = some v ∧ typeOf v = p.2)
    (hdecl : ∀ n ∈ varsOf cav.ast, n ∈ cav.celEnv.map Prod.fst)
    (h : EvaluateCaveat cav ctx = .ok r) : r.IsPartial = false := by
  have hb : ∀ n ∈ varsOf cav.ast, (ctx n).isSome = true := by
    intro n hn
    rcases List.mem_map.mp (hdecl n hn) with ⟨p, hp, he⟩
    obtain ⟨v, hv, -⟩ := hbind p hp
    rw [← he, hv]
    rfl
  rcases evaluateCaveat_ok_inv cav ctx r h with ⟨v, -, hr⟩ | ⟨i, ns, hk, -⟩
  · rw [hr]
    rfl
  · exact absurd hk (eval3_no_unknown ctx cav.ast i ns hb)

/-- Witness for C6 at the running example with the full context. -/
theorem fully_bound_not_partial_witness :
    EvaluateCaveat exCaveat ctxFull = .ok exDecidedResult ∧
    exDecidedResult.IsPartial = false :=
  ⟨evaluateCaveat_known exCaveat ctxFull (.bool true) rfl,
   fully_bound_not_partial exCaveat ctxFull exDecidedResult
    (by
      intro p hp
      simp only [exCaveat, List.mem_cons, List.not_mem_nil, or_false] at hp
      rcases hp with h | h <;> subst h
      · exact ⟨.int 20, rfl, rfl⟩
      · exact ⟨.str "US", rfl, rfl⟩)
    (by decide)
    (evaluateCaveat_known exCaveat ctxFull (.bool true) rfl)⟩


theorem mergeCtx_le (c1 c2 : Ctx) : ctxLE c1 (mergeCtx c1 c2) := by
  intro n v h
  unfold mergeCtx
  rw [h]

/-- C1: every Partial result's missingVarNames list is exactly the evaluator's
missing-name list: the distinct parameter names read while unknown, in
first-encountered order (deduplicated, non-empty, and each genuinely unbound);
concretely, `age >= 18 AND country == "US"` under `{age: 20}` yields
`MissingVarNames() == ["country"]`, and under the empty context it yields
`["age", "country"]` in reading order. -/
theorem missing_var_names_spec :
    (∀ (cav : CompiledCaveat) (ctx : Ctx) (r : CaveatResult),
      wfExpr cav.ast = true →
      EvaluateCaveat cav ctx = .ok r → r.IsPartial = true →
      ∃ i ns, eval3 ctx cav.ast = .unknown i ns ∧ r.missingVarNames = ns ∧
        ns.Nodup ∧ ns ≠ [] ∧ (∀ n ∈ ns, ctx n = none)) ∧
    (EvaluateCaveat exCaveat ctxAge20).map CaveatResult.MissingVarNames
      = .ok (.ok ["country"]) ∧
    (EvaluateCaveat exCaveat ctxEmpty).map CaveatResult.MissingVarNames
      = .ok (.ok ["age", "country"]) := by
  refine ⟨?_, ?_, ?_⟩
  · intro cav ctx r hwf h hp
    rw [CaveatResult.IsPartial] at hp
    rcases evaluateCaveat_ok_inv cav ctx r h with ⟨v, -, hr⟩ | ⟨i, ns, hk, -⟩
    · rw [hr] at hp
      cases hp
    · rw [evaluateCaveat_unknown_wf cav ctx i ns hwf hk] at h
      obtain ⟨hne, hnd, hmem⟩ := eval3_unknown_names ctx cav.ast i ns hwf hk
      simp only [Except.ok.injEq] at h
      refine ⟨i, ns, hk, by rw [← h], hnd, hne, fun n hn => (hmem n hn).1⟩
  · rw [evaluateCaveat_unknown_wf exCaveat ctxAge20 2 ["country"] (by decide) rfl]
    rfl
  · rw [evaluateCaveat_unknown_wf exCaveat ctxEmpty 1 ["age", "country"] (by decide) rfl]
    rfl

/-- Witness for C1's general part at the running example under `{age: 20}`. -/
theorem missing_var_names_spec_witness :
    ∃ i ns, eval3 ctxAge20 exCaveat.ast = .unknown i ns ∧
      exPartialResult.missingVarNames = ns ∧ ns.Nodup ∧ ns ≠ [] ∧
      (∀ n ∈ ns, ctxAge20 n = none) :=
  missing_var_names_spec.1 exCaveat ctxAge20 exPartialResult (by decide)
    (evaluateCaveat_unknown_wf exCaveat ctxAge20 2 ["country"] (by decide) rfl) rfl

/-- C3: with a positive MaxCost k configured, any expression whose evaluation
requires more than k cost units yields the hard CostLimitExceeded failure —
never a Decided and never a Partial result; a zero MaxCost or an absent
config leaves evaluation unbounded (it always completes). -/
theorem cost_limit_spec :
    (∀ (cav : CompiledCaveat) (ctx : Ctx) (k : Nat), 0 < k →
      k < costOf ctx cav.ast →
      EvaluateCaveatWithConfig cav ctx (some ⟨k⟩) = .error costLimitMsg) ∧
    (∀ (cav : CompiledCaveat) (ctx : Ctx),
      EvaluateCaveatWithConfig cav ctx (some ⟨0⟩) = EvaluateCaveat cav ctx) ∧
    (∀ (cav : CompiledCaveat) (ctx : Ctx),
      evalE ctx none cav.ast 0 = .ok (eval3 ctx cav.ast, costOf ctx cav.ast)) := by
  refine ⟨?_, ?_, ?_⟩
  · intro cav ctx k hk hcost
    unfold EvaluateCaveatWithConfig progEval
    simp only []
    rw [if_pos hk]
    rw [evalE_bounded ctx k cav.ast 0 (Nat.zero_le k)]
    rw [if_neg (by omega)]
    rfl
  · intro cav ctx
    unfold EvaluateCaveat EvaluateCaveatWithConfig
    simp only []
    rfl
  · intro cav ctx
    rw [evalE_none ctx cav.ast 0, Nat.zero_add]

/-- Witness for C3: the running example costs 5 units under the full context,
so MaxCost 1 fails with the cost-limit error. -/
theorem cost_limit_spec_witness :
    EvaluateCaveatWithConfig exCaveat ctxFull (some ⟨1⟩) = .error costLimitMsg :=
  cost_limit_spec.1 exCaveat ctxFull 1 (by decide) (by decide)

/-- C4: evaluating the residual of a Partial result against the original
context merged with a context binding exactly the missing names yields the
same Decided boolean as evaluating the original expression against the merged
context in one pass. -/
theorem residual_idempotent (cav : CompiledCaveat) (ctx1 ctx2 : Ctx)
    (r rOrig : CaveatResult) (resid : CompiledCaveat) (b : Bool)
    (h1 : EvaluateCaveat cav ctx1 = .ok r) (hp : r.IsPartial = true)
    (hpv : r.PartialValue = .ok resid)
    (_hbind : ∀ n, (ctx2 n).isSome = true ↔ n ∈ r.missingVarNames)
    (h2 : EvaluateCaveat cav (mergeCtx ctx1 ctx2) = .ok rOrig)
    (h2p : rOrig.IsPartial = false) (h2v : rOrig.Value = some b) :
    ∃ rRes, EvaluateCaveat resid (mergeCtx ctx1 ctx2) = .ok rRes ∧
      rRes.IsPartial = false ∧ rRes.Value = some b := by
  rw [CaveatResult.IsPartial] at hp h2p
  rcases evaluateCaveat_ok_inv cav ctx1 r h1 with ⟨v, -, hr⟩ | ⟨i, ns, hk1, -, -, hdet, hpar⟩
  · rw [hr] at hp
    cases hp
  · unfold CaveatResult.PartialValue at hpv
    rw [hp] at hpv
    simp only [Bool.not_true, Bool.false_eq_true, if_false, Except.ok.injEq] at hpv
    rcases evaluateCaveat_ok_inv cav (mergeCtx ctx1 ctx2) rOrig h2 with
      ⟨v, hkM, hrO⟩ | ⟨i2, ns2, -, hflag, -⟩
    · have hvb : v = .bool b := by
        rw [hrO] at h2v
        unfold CaveatResult.Value at h2v
        simp only [Bool.false_eq_true, if_false] at h2v
        rcases v with b2 | z | s
        · simp only [Option.some.injEq] at h2v
          rw [h2v]
        · cases h2v
        · cases h2v
      have hne : ∀ m, eval3 (mergeCtx ctx1 ctx2) cav.ast ≠ .err m := by
        intro m hm
        rw [hkM] at hm
        cases hm
      have hpc := prune_correct ctx1 (mergeCtx ctx1 ctx2) (mergeCtx_le ctx1 ctx2) cav.ast hne
      have hast : resid.ast = prune ctx1 cav.ast := by
        rw [← hpv]
        rw [hdet, hpar]
      have hroot : eval3 (mergeCtx ctx1 ctx2) resid.ast = .known (.bool b) := by
        rw [hast, hpc, hkM, hvb]
      exact ⟨_, evaluateCaveat_known resid _ _ hroot, rfl, rfl⟩
    · rw [hflag] at h2p
      cases h2p

/-- The residual compiled caveat of the running example under `{age: 20}`. -/
def exResidual : CompiledCaveat :=
  ⟨exCaveat.celEnv, prune ctxAge20 exCaveat.ast, exCaveat.name⟩

/-- Witness for C4 at the running example: the residual of `{age: 20}`
re-evaluated with `{country: "US"}` merged in decides `true`, as does the
original in one pass. -/
theorem residual_idempotent_witness :
    ∃ rRes, EvaluateCaveat exResidual (mergeCtx ctxAge20 ctxCountry) = .ok rRes ∧
      rRes.IsPartial = false ∧ rRes.Value = some true :=
  residual_idempotent exCaveat ctxAge20 ctxCountry exPartialResult
    ⟨some (.concrete (.bool true)), mergeCtx ctxAge20 ctxCountry, exCaveat,
      mergeCtx ctxAge20 ctxCountry, [], false⟩
    exResidual true
    (evaluateCaveat_unknown_wf exCaveat ctxAge20 2 ["country"] (by decide) rfl)
    rfl rfl
    (by
      intro n
      by_cases h : n = "country" <;> simp [ctxCountry, exPartialResult, h])
    (evaluateCaveat_known exCaveat (mergeCtx ctxAge20 ctxCountry) (.bool true) rfl)
    rfl rfl

/-- C9: the wrapper classifies an evaluation as Partial exactly when the
evaluator hands back a non-nil value together with an error whose text
contains `no such attribute`; any other error — a nil-value failure included —
is propagated as a hard error; a full regex match yields the names split on
spaces, and a non-matching `no such attribute` error yields a Partial result
with a nil (empty) name list. -/
theorem partial_classification_spec (cav : CompiledCaveat) (cvals : Ctx)
    (det : EvalDetails) (valO : Option RefVal) :
    (∀ errO : Option String,
      (∃ r, handleEvalResult cav cvals valO det errO = .ok r ∧ r.IsPartial = true) ↔
      (valO.isSome = true ∧ ∃ m, errO = some m ∧
        goContains m "no such attribute" = true)) ∧
    (∀ m : String, valO.isSome = false ∨ goContains m "no such attribute" = false →
      handleEvalResult cav cvals valO det (some m) = .error m) ∧
    (∀ (m : String) (found : String × String), valO.isSome = true →
      goContains m "no such attribute" = true →
      noSuchAttributeMatch m = some found →
      handleEvalResult cav cvals valO det (some m) =
        .ok ⟨valO, det, cav, cvals, goSplitSpace found.2, true⟩) ∧
    (∀ m : String, valO.isSome = true →
      goContains m "no such attribute" = true →
      noSuchAttributeMatch m = none →
      handleEvalResult cav cvals valO det (some m) =
        .ok ⟨valO, det, cav, cvals, [], true⟩) := by
  refine ⟨?_, ?_, ?_, ?_⟩
  · intro errO
    constructor
    · rintro ⟨r, hr, hp⟩
      rw [CaveatResult.IsPartial] at hp
      unfold handleEvalResult at hr
      rcases errO with - | m
      · simp only [] at hr
        simp only [Except.ok.injEq] at hr
        rw [← hr] at hp
        cases hp
      · simp only [] at hr
        by_cases hc : (valO.isSome && goContains m "no such attribute") = true
        · obtain ⟨hv2, hc2⟩ := Bool.and_eq_true_iff.mp hc
          exact ⟨hv2, m, rfl, hc2⟩
        · rw [if_neg hc] at hr
          cases hr
    · rintro ⟨hv, m, he, hc⟩
      subst he
      unfold handleEvalResult
      simp only []
      rw [hv, hc]
      rcases hm : noSuchAttributeMatch m with - | found
      · exact ⟨⟨valO, det, cav, cvals, [], true⟩, by rfl, rfl⟩
      · exact ⟨⟨valO, det, cav, cvals, goSplitSpace found.2, true⟩, by rfl, rfl⟩
  · intro m hOr
    unfold handleEvalResult
    simp only []
    have hc : (valO.isSome && goContains m "no such attribute") = false := by
      rcases hOr with h | h <;> rw [h] <;> simp
    rw [hc]
    rfl
  · intro m found hv hc hm
    unfold handleEvalResult
    simp only []
    rw [hv, hc, hm]
    rfl
  · intro m hv hc hm
    unfold handleEvalResult
    simp only []
    rw [hv, hc, hm]
    rfl

/-- Witness for C9: a nil-value error propagates hard; a matching
`no such attribute` error yields the space-split names; a non-matching one
yields a Partial result with an empty name list; and on a message ending in
`, names: []` with an earlier separator occurrence, the greedy first group
backtracks to the earlier occurrence, so the program still matches and
splits. -/
theorem partial_classification_spec_witness :
    handleEvalResult exCaveat ctxEmpty none ctxEmpty (some "boom") = .error "boom" ∧
    handleEvalResult exCaveat ctxEmpty (some (.unknownVal 7 ["x", "y"])) ctxEmpty
      (some "no such attribute: id: 7, names: [x y]") =
      .ok ⟨some (.unknownVal 7 ["x", "y"]), ctxEmpty, exCaveat, ctxEmpty,
        ["x", "y"], true⟩ ∧
    handleEvalResult exCaveat ctxEmpty (some (.unknownVal 7 [])) ctxEmpty
      (some "no such attribute: oops") =
      .ok ⟨some (.unknownVal 7 []), ctxEmpty, exCaveat, ctxEmpty, [], true⟩ ∧
    handleEvalResult exCaveat ctxEmpty (some (.unknownVal 1 [])) ctxEmpty
      (some "no such attribute: id: 1, names: [a], names: []") =
      .ok ⟨some (.unknownVal 1 []), ctxEmpty, exCaveat, ctxEmpty,
        ["a],", "names:", "["], true⟩ := by
  refine ⟨(partial_classification_spec exCaveat ctxEmpty ctxEmpty none).2.1 "boom"
    (Or.inl rfl), ?_, ?_, ?_⟩
  · have hmatch : noSuchAttributeMatch "no such attribute: id: 7, names: [x y]"
        = some ("7", "x y") := by decide
    have h := (partial_classification_spec exCaveat ctxEmpty ctxEmpty
      (some (.unknownVal 7 ["x", "y"]))).2.2.1 "no such attribute: id: 7, names: [x y]"
      ("7", "x y") rfl (by decide) hmatch
    have hsplit : goSplitSpace "x y" = ["x", "y"] := by
      simp [goSplitSpace, splitSeq]
    rw [hsplit] at h
    exact h
  · have hnone : noSuchAttributeMatch "no such attribute: oops" = none := by decide
    exact (partial_classification_spec exCaveat ctxEmpty ctxEmpty
      (some (.unknownVal 7 []))).2.2.2 "no such attribute: oops" rfl (by decide) hnone
  · have hmatch : noSuchAttributeMatch "no such attribute: id: 1, names: [a], names: []"
        = some ("1", "a], names: [") := by decide
    have h := (partial_classification_spec exCaveat ctxEmpty ctxEmpty
      (some (.unknownVal 1 []))).2.2.1 "no such attribute: id: 1, names: [a], names: []"
      ("1", "a], names: [") rfl (by decide) hmatch
    have hsplit : goSplitSpace "a], names: [" = ["a],", "names:", "["] := by
      simp [goSplitSpace, splitSeq]
    rw [hsplit] at h
    exact h

end Caveats
